import Mathlib

/-!
# UCS645 LAB1: sweep harness and kernels

Shallow embedding of `daxpy_q1.c`, `matrix_q2.c` and `pi_q3.c`.

* `double` values are modelled by `ℚ` (exact arithmetic); the kernels that only
  copy and combine values are stated over an arbitrary carrier with `+`, `*`, `0`.
* Buffers are functions `Nat → α` indexed by the flattened offset.
* An OpenMP work-sharing loop is modelled by the list of iteration indices in the
  order in which their bodies take effect: the static schedule assigns one
  contiguous block per thread (`static_chunk`) and a scheduler, a parameter of the
  kernels, interleaves the blocks.
-/

namespace UCS645

/-! ## Best-configuration tracking (all three sweeps) -/

/-- The pair `best_threads` / `best_speedup` kept by each sweep. -/
structure BestConfiguration where
  threadCount : Nat
  speedup : ℚ
deriving DecidableEq, Repr

/-- Initial value: `best_speedup = 0.0; best_threads = 1;`. -/
def best_init : BestConfiguration := ⟨1, 0⟩

/-- The update `if (speedup > best_speedup) { best_speedup = speedup; best_threads = threads; }`. -/
def best_update (b : BestConfiguration) (threads : Nat) (speedup : ℚ) : BestConfiguration :=
  if speedup > b.speedup then ⟨threads, speedup⟩ else b

/-- The update applied to a sequence of `(threadCount, speedup)` records in the given order. -/
def best_of_records (b : BestConfiguration) (records : List (Nat × ℚ)) : BestConfiguration :=
  records.foldl (fun b r => best_update b r.1 r.2) b

/-- The sweep loop `for (threads = 1; threads <= limit; threads++)`, where `speedup threads`
is the speedup measured at that thread count. -/
def sweep_best (speedup : Nat → ℚ) (limit : Nat) : BestConfiguration :=
  (List.range limit).foldl (fun b i => best_update b (i + 1) (speedup (i + 1))) best_init

/-! ## OpenMP work-sharing model -/

/-- Bounds `[s0, e0)` of the block given to thread `i` by `schedule(static)` without a chunk
size for `n` iterations over `nthreads` threads: `q = n / nthreads`, `t = n % nthreads`, the
first `t` threads get `q + 1` iterations and the others `q` (the GNU runtime's convention). -/
def static_chunk (n nthreads i : Nat) : Nat × Nat :=
  let q := n / nthreads
  let t := n % nthreads
  if i < t then ((q + 1) * i, (q + 1) * i + (q + 1)) else (q * i + t, q * i + t + q)

/-- First iteration of thread `i` in closed form. -/
def static_start (n nthreads i : Nat) : Nat := (n / nthreads) * i + min i (n % nthreads)

/-- Iterations executed by thread `i`, in the order the thread executes them. -/
def static_block (n nthreads i : Nat) : List Nat :=
  List.range' (static_chunk n nthreads i).1
    ((static_chunk n nthreads i).2 - (static_chunk n nthreads i).1)

/-- Blocks of all threads `0 .. nthreads - 1`. -/
def static_blocks (n nthreads : Nat) : List (List Nat) :=
  (List.range nthreads).map (static_block n nthreads)

/-- An execution of a work-sharing loop with the given per-thread blocks: a sequence in which
every iteration of every block occurs as often as in the blocks. Every interleaving of the
threads is such a sequence. -/
def IsExecution (blocks : List (List Nat)) (order : List Nat) : Prop :=
  order.Perm blocks.flatten

/-- A scheduler maps the per-thread blocks of a work-sharing loop to the order in which the
iteration bodies take effect; it must produce an execution of the blocks it is given. -/
def IsScheduler (sched : List (List Nat) → List Nat) : Prop :=
  ∀ blocks, IsExecution blocks (sched blocks)

/-! ## Matrix kernel (`matrix_q2.c`) -/

/-- The constant `MATRIX_DIM`. -/
def MATRIX_DIM : Nat := 1000

/-- The constant `THREAD_LIMIT`. -/
def THREAD_LIMIT : Nat := 32

/-- The macro `INDEX(mat, row, col)`: offset `row * MATRIX_DIM + col`. -/
def INDEX (DIM row col : Nat) : Nat := row * DIM + col

section Kernels
variable {α : Type} [Zero α] [Add α] [Mul α]

/-- The innermost loop: `accumulator = 0.0; for k in [0, DIM): accumulator += A[row][k] * B[k][col]`. -/
def accumulate (DIM : Nat) (A B : Nat → α) (row col : Nat) : α :=
  (List.range DIM).foldl (fun accumulator k => accumulator + A (INDEX DIM row k) * B (INDEX DIM k col)) 0

/-- Body of the column loop: `INDEX(result_matrix, row, col) = accumulator`. -/
def cell_body (DIM : Nat) (A B : Nat → α) (result : Nat → α) (row col : Nat) : Nat → α :=
  Function.update result (INDEX DIM row col) (accumulate DIM A B row col)

/-- Body of the row loop: the column loop `for col in [0, DIM)`. -/
def row_body (DIM : Nat) (A B : Nat → α) (result : Nat → α) (row : Nat) : Nat → α :=
  (List.range DIM).foldl (fun res col => cell_body DIM A B res row col) result

/-- The function `sequential_multiply`: rows `0 .. DIM - 1` in order. Returns the result buffer. -/
def sequential_multiply (DIM : Nat) (A B : Nat → α) (result : Nat → α) : Nat → α :=
  (List.range DIM).foldl (row_body DIM A B) result

/-- The function `parallel_version1`: the row loop is work-shared with `schedule(static)` over
`num_threads` threads, thread `T` processing the rows `static_block DIM num_threads T`; `sched`
interleaves the threads. Returns the result buffer. -/
def parallel_version1 (DIM : Nat) (A B : Nat → α) (num_threads : Nat)
    (sched : List (List Nat) → List Nat) (result : Nat → α) : Nat → α :=
  (sched (static_blocks DIM num_threads)).foldl (row_body DIM A B) result

/-- The function `parallel_version2`: `collapse(2) schedule(static)` work-shares the flattened
iteration space `[0, DIM * DIM)`, iteration `idx` being `row = idx / DIM`, `col = idx % DIM`. -/
def parallel_version2 (DIM : Nat) (A B : Nat → α) (num_threads : Nat)
    (sched : List (List Nat) → List Nat) (result : Nat → α) : Nat → α :=
  (sched (static_blocks (DIM * DIM) num_threads)).foldl
    (fun res idx => cell_body DIM A B res (idx / DIM) (idx % DIM)) result

/-! ## AXPY kernel (`daxpy_q1.c`) -/

/-- The loop body `X[idx] = scalar * X[idx] + Y[idx]` run for the iterations in `order`. -/
def daxpy_loop (scalar : α) (Y : Nat → α) (order : List Nat) (X : Nat → α) : Nat → α :=
  order.foldl (fun X idx => Function.update X idx (scalar * X idx + Y idx)) X

/-- The DAXPY kernel: the loop over `[0, len)` work-shared with `schedule(static)` over
`thread_num` threads, interleaved by `sched`. -/
def daxpy_kernel (len : Nat) (scalar : α) (Y : Nat → α) (thread_num : Nat)
    (sched : List (List Nat) → List Nat) (X : Nat → α) : Nat → α :=
  daxpy_loop scalar Y (sched (static_blocks len thread_num)) X

end Kernels

/-- The three buffers written by `setup_matrices`. -/
structure Matrices where
  matrix_A : Nat → ℚ
  matrix_B : Nat → ℚ
  result_matrix : Nat → ℚ

/-- Body of the loops of `setup_matrices` at `(row, col)`: `A = row + col`, `B = row - col`
(signed `int` arithmetic, then converted), `result = 0.0`. -/
def setup_cell (DIM : Nat) (m : Matrices) (row col : Nat) : Matrices :=
  { matrix_A := Function.update m.matrix_A (INDEX DIM row col) ((row + col : Nat) : ℚ)
    matrix_B := Function.update m.matrix_B (INDEX DIM row col) (((row : Int) - (col : Int) : Int) : ℚ)
    result_matrix := Function.update m.result_matrix (INDEX DIM row col) 0 }

/-- The function `setup_matrices`. -/
def setup_matrices (DIM : Nat) (m : Matrices) : Matrices :=
  (List.range DIM).foldl
    (fun m row => (List.range DIM).foldl (fun m col => setup_cell DIM m row col) m) m

/-- Arbitrary contents of the buffers before `setup_matrices` (here: all zero). -/
def blank_matrices : Matrices := ⟨fun _ => 0, fun _ => 0, fun _ => 0⟩

/-- The inputs of the scenario `DIM = 4`, as left by `setup_matrices`. -/
def scenario4 : Matrices := setup_matrices 4 blank_matrices

/-! ## AXPY harness (`daxpy_q1.c`) -/

/-- The constant `N`, `1 << 16`. -/
def N : Nat := 65536

/-- The variable `scalar = 2.5`. -/
def scalar : ℚ := 2.5

/-- Vector initialisation: `X[idx] = idx * 0.5; Y[idx] = (N - idx) * 0.3;` for `idx` in
`[0, len)`, the subtraction being done on `int`. -/
def daxpy_init (len : Nat) (X Y : Nat → ℚ) : (Nat → ℚ) × (Nat → ℚ) :=
  (List.range len).foldl (fun XY idx =>
    (Function.update XY.1 idx ((idx : ℚ) * 0.5),
     Function.update XY.2 idx ((((len : Int) - (idx : Int) : Int) : ℚ) * 0.3))) (X, Y)

/-- The reset loop `X[idx] = idx * 0.5` for `idx` in `[0, len)`. -/
def daxpy_reset (len : Nat) (X : Nat → ℚ) : Nat → ℚ :=
  (List.range len).foldl (fun X idx => Function.update X idx ((idx : ℚ) * 0.5)) X

/-- What a timed repetition saw: the buffers when the timer starts and `X` when it stops. -/
structure Snapshot where
  thread_num : Nat
  iter : Nat
  X_start : Nat → ℚ
  Y_start : Nat → ℚ
  X_out : Nat → ℚ

/-- Program state of the sweep of `daxpy_q1.c`, with the record of the timed repetitions. -/
structure DaxpyState where
  X : Nat → ℚ
  Y : Nat → ℚ
  log : List Snapshot

/-- One timed repetition: the DAXPY kernel, then the restore loop. -/
def timed_iteration (len : Nat) (a : ℚ) (sched : List (List Nat) → List Nat)
    (thread_num iter : Nat) (st : DaxpyState) : DaxpyState :=
  { X := daxpy_reset len (daxpy_kernel len a st.Y thread_num sched st.X)
    Y := st.Y
    log := st.log ++
      [⟨thread_num, iter, st.X, st.Y, daxpy_kernel len a st.Y thread_num sched st.X⟩] }

/-- Body of the loop over `thread_num`: warm-up loop, reset, `iterations` timed repetitions.
The warm-up loop has no schedule clause: `warm thread_num` is the order in which its iterations
take effect; `sched thread_num iter` interleaves the threads of timed repetition `iter`. -/
def thread_iteration (len : Nat) (a : ℚ) (iterations : Nat) (warm : Nat → List Nat)
    (sched : Nat → Nat → List (List Nat) → List Nat) (st : DaxpyState) (thread_num : Nat) :
    DaxpyState :=
  (List.range iterations).foldl
    (fun st iter => timed_iteration len a (sched thread_num iter) thread_num iter st)
    { X := daxpy_reset len (daxpy_loop a st.Y (warm thread_num) st.X), Y := st.Y, log := st.log }

/-- The sweep of `main` in `daxpy_q1.c`: initialisation, then `thread_num = 1 .. max_threads`
(16 in the source) with `iterations` (100) timed repetitions each. -/
def daxpy_main (len : Nat) (a : ℚ) (max_threads iterations : Nat) (warm : Nat → List Nat)
    (sched : Nat → Nat → List (List Nat) → List Nat) (X Y : Nat → ℚ) : DaxpyState :=
  (List.range max_threads).foldl
    (fun st i => thread_iteration len a iterations warm sched st (i + 1))
    { X := (daxpy_init len X Y).1, Y := (daxpy_init len X Y).2, log := [] }

/-- Invariant of the sweep of `daxpy_q1.c` between timed repetitions: `X` holds its initial
values on `[0, len)`, `Y` is the vector `Y0`, and every recorded repetition started from these
values and produced `a * X + Y0`. -/
def DaxpyInv (len : Nat) (a : ℚ) (Y0 : Nat → ℚ) (st : DaxpyState) : Prop :=
  (∀ i, i < len → st.X i = (i : ℚ) * 0.5) ∧ st.Y = Y0 ∧
  ∀ s ∈ st.log, ∀ i, i < len →
    s.X_start i = (i : ℚ) * 0.5 ∧ s.Y_start i = Y0 i ∧ s.X_out i = a * ((i : ℚ) * 0.5) + Y0 i

/-- Thread count and repetition number of the recorded repetitions, in order. -/
def log_ids (st : DaxpyState) : List (Nat × Nat) :=
  st.log.map (fun s => (s.thread_num, s.iter))

/-! ## Pi kernel (`pi_q3.c`) -/

/-- Loop body shared by both kernels: `pos = (idx + 0.5) * delta; total += 4.0 / (1.0 + pos * pos)`. -/
def pi_accumulate (delta : ℚ) (total : ℚ) (idx : Nat) : ℚ :=
  let pos := ((idx : ℚ) + 0.5) * delta
  total + 4.0 / (1.0 + pos * pos)

/-- The function `compute_pi_sequential`: the value stored in `*result`. -/
def compute_pi_sequential (n : Nat) : ℚ :=
  let delta := 1.0 / (n : ℚ)
  let total := (List.range n).foldl (pi_accumulate delta) 0.0
  delta * total

/-- The private `local_total` of a worker that executes the iterations `part`. -/
def local_total (delta : ℚ) (part : List Nat) : ℚ :=
  part.foldl (pi_accumulate delta) 0.0

/-- A work-sharing of `#pragma omp for` without a schedule clause: for `n` iterations and
`threads >= 1` workers it gives each worker the list of iterations it executes, every
iteration of `[0, n)` to exactly one worker. -/
def IsWorkShare (split : Nat → Nat → List (List Nat)) : Prop :=
  ∀ n threads, 1 ≤ threads →
    (split n threads).length = threads ∧ (split n threads).flatten.Perm (List.range n)

/-- The order in which the workers pass the critical section: a rearrangement of the workers. -/
def IsCriticalOrder (crit : List (List Nat) → List (List Nat)) : Prop :=
  ∀ parts, (crit parts).Perm parts

/-- The function `compute_pi_threaded`: the value stored in `*result`. `split n threads` is the
work-sharing of the loop, `crit` the order in which the workers execute
`total += local_total` in the critical section. -/
def compute_pi_threaded (n : Nat) (threads : Nat) (split : Nat → Nat → List (List Nat))
    (crit : List (List Nat) → List (List Nat)) : ℚ :=
  let delta := 1.0 / (n : ℚ)
  let total := (crit (split n threads)).foldl
    (fun total part => total + local_total delta part) 0.0
  delta * total

/-! ## Sweep metrics -/

/-- The constant `NUM_ITERATIONS` of `matrix_q2.c`. -/
def NUM_ITERATIONS : Nat := 5

/-- The constant `ITER` of `pi_q3.c`. -/
def ITER : Nat := 3

/-- The accumulation `cumulative_time += time(iter)` over `iter` in `[0, reps)`, from `0.0`. -/
def cumulative (time : Nat → ℚ) (reps : Nat) : ℚ :=
  (List.range reps).foldl (fun cumulative_time iter => cumulative_time + time iter) 0.0

/-- One printed row of the matrix and pi sweeps. -/
structure MetricRecord where
  threadCount : Nat
  elapsedSeconds : ℚ
  speedup : ℚ
  efficiencyPct : ℚ
deriving DecidableEq

/-- Body of a matrix sweep at `threads`: `mean_time = cumulative_time / NUM_ITERATIONS`,
`speedup_factor = baseline_time / mean_time`,
`efficiency_pct = (speedup_factor / threads) * 100.0`; `time iter` is what the kernel
call of repetition `iter` returned. -/
def matrix_metrics (baseline_time : ℚ) (time : Nat → ℚ) (threads : Nat) : MetricRecord :=
  let cumulative_time := cumulative time NUM_ITERATIONS
  let mean_time := cumulative_time / (NUM_ITERATIONS : ℚ)
  let speedup_factor := baseline_time / mean_time
  let efficiency_pct := (speedup_factor / (threads : ℚ)) * 100.0
  ⟨threads, mean_time, speedup_factor, efficiency_pct⟩

/-- Body of the pi sweep at `t`: `elapsed /= ITER; speedup = baseline / elapsed;
eff = (speedup / t) * 100.0`. -/
def pi_metrics (baseline : ℚ) (time : Nat → ℚ) (t : Nat) : MetricRecord :=
  let elapsed := cumulative time ITER
  let elapsed := elapsed / (ITER : ℚ)
  let speedup := baseline / elapsed
  let eff := (speedup / (t : ℚ)) * 100.0
  ⟨t, elapsed, speedup, eff⟩

/-- One printed row of the AXPY sweep. -/
structure DaxpyRow where
  thread_num : Nat
  mean_time : ℚ
  speedup_ratio : ℚ
deriving DecidableEq

/-- Timing part of the body of the loop over `thread_num` in `daxpy_q1.c`; the state is
`serial_exec_time` and the rows printed so far. -/
def daxpy_metrics (time : Nat → Nat → ℚ) (st : ℚ × List DaxpyRow) (thread_num : Nat) :
    ℚ × List DaxpyRow :=
  let cumulative_time := cumulative (time thread_num) 100
  let mean_time := (cumulative_time / ((100 : Nat) : ℚ)) * 1000.0
  let serial_exec_time := if thread_num = 1 then mean_time else st.1
  let speedup_ratio := serial_exec_time / mean_time
  (serial_exec_time, st.2 ++ [⟨thread_num, mean_time, speedup_ratio⟩])

/-- The AXPY sweep `for (thread_num = 1; thread_num <= max_threads; thread_num++)`, started
with `serial_exec_time = 0.0`. -/
def daxpy_sweep (time : Nat → Nat → ℚ) (max_threads : Nat) : ℚ × List DaxpyRow :=
  (List.range max_threads).foldl (fun st i => daxpy_metrics time st (i + 1)) (0.0, [])

/-! ## Validation (`matrix_q2.c`) -/

/-- The test of `validate_output` at one cell: `delta = reference - computed;
if (delta < 0) delta = -delta; delta > 1e-6`. -/
def cell_mismatch (DIM : Nat) (reference computed : Nat → ℚ) (row col : Nat) : Bool :=
  let delta := reference (INDEX DIM row col) - computed (INDEX DIM row col)
  let delta := if delta < 0 then -delta else delta
  decide (delta > 1e-6)

/-- The column loop of `validate_output` from `col` on, `col += sample_rate` after each cell.
Each loop test costs one unit of fuel; `none` when the fuel runs out. The result is whether the
function returned `0` inside the loop, and the cells inspected, in order. -/
def validate_cols (DIM sample_rate : Nat) (reference computed : Nat → ℚ) (row : Nat) :
    Nat → Nat → Option (Bool × List (Nat × Nat))
  | 0, _ => none
  | fuel + 1, col =>
    if col < DIM then
      if cell_mismatch DIM reference computed row col then some (true, [(row, col)])
      else (validate_cols DIM sample_rate reference computed row fuel (col + sample_rate)).map
        (fun p => (p.1, (row, col) :: p.2))
    else some (false, [])

/-- The row loop of `validate_output` from `row` on, `row += sample_rate` after each row.
The result is the returned value (`0` mismatch, `1` match) and the cells inspected, in order. -/
def validate_rows (DIM sample_rate : Nat) (reference computed : Nat → ℚ) :
    Nat → Nat → Option (Int × List (Nat × Nat))
  | 0, _ => none
  | fuel + 1, row =>
    if row < DIM then
      match validate_cols DIM sample_rate reference computed row fuel 0 with
      | none => none
      | some (true, cells) => some (0, cells)
      | some (false, cells) =>
        (validate_rows DIM sample_rate reference computed fuel (row + sample_rate)).map
          (fun p => (p.1, cells ++ p.2))
    else some (1, [])

/-- The function `validate_output` for a matrix dimension `DIM`:
`sample_rate = MATRIX_DIM / 10`, both loops start at 0. -/
def validate_output (DIM : Nat) (reference computed : Nat → ℚ) (fuel : Nat) :
    Option (Int × List (Nat × Nat)) :=
  validate_rows DIM (DIM / 10) reference computed fuel 0

/-- Value returned by `validate_output`, if it returns within `fuel`. -/
def validate_result (DIM : Nat) (reference computed : Nat → ℚ) (fuel : Nat) : Option Int :=
  (validate_output DIM reference computed fuel).map Prod.fst

/-- The multiples of `sample_rate` from `start` on that are below `DIM`, ascending. -/
def sample_points (DIM sample_rate start : Nat) : List Nat :=
  (List.range ((DIM - start + sample_rate - 1) / sample_rate)).map
    (fun j => start + j * sample_rate)

/-- The sampling grid: all pairs of sample points, row by row. -/
def sample_grid (DIM sample_rate : Nat) : List (Nat × Nat) :=
  (sample_points DIM sample_rate 0).flatMap
    (fun row => (sample_points DIM sample_rate 0).map (fun col => (row, col)))

/-! # Lemmas and theorems -/

/-! ### Lemmas on the tracking loop -/

theorem best_of_records_nil (b : BestConfiguration) : best_of_records b [] = b := rfl

theorem best_of_records_cons (b : BestConfiguration) (r : Nat × ℚ) (l : List (Nat × ℚ)) :
    best_of_records b (r :: l) = best_of_records (best_update b r.1 r.2) l := rfl

theorem best_update_speedup_ge (b : BestConfiguration) (t : Nat) (s : ℚ) :
    b.speedup ≤ (best_update b t s).speedup ∧ s ≤ (best_update b t s).speedup := by
  unfold best_update
  split
  · rename_i h; exact ⟨le_of_lt h, le_refl _⟩
  · rename_i h; exact ⟨le_refl _, not_lt.mp h⟩

theorem best_of_records_ge (l : List (Nat × ℚ)) :
    ∀ b : BestConfiguration, b.speedup ≤ (best_of_records b l).speedup ∧
      ∀ r ∈ l, r.2 ≤ (best_of_records b l).speedup := by
  induction l with
  | nil => intro b; simp [best_of_records_nil]
  | cons r l ih =>
    intro b
    rw [best_of_records_cons]
    obtain ⟨h1, h2⟩ := ih (best_update b r.1 r.2)
    obtain ⟨h3, h4⟩ := best_update_speedup_ge b r.1 r.2
    refine ⟨le_trans h3 h1, ?_⟩
    intro r' hr'
    rcases List.mem_cons.mp hr' with h | h
    · subst h; exact le_trans h4 h1
    · exact h2 r' h

theorem best_of_records_origin (l : List (Nat × ℚ)) :
    ∀ b : BestConfiguration, best_of_records b l = b ∨
      ∃ r ∈ l, best_of_records b l = ⟨r.1, r.2⟩ ∧ b.speedup < r.2 := by
  induction l with
  | nil => intro b; left; rfl
  | cons r l ih =>
    intro b
    rw [best_of_records_cons]
    by_cases h : r.2 > b.speedup
    · have hu : best_update b r.1 r.2 = ⟨r.1, r.2⟩ := by simp [best_update, h]
      rcases ih (best_update b r.1 r.2) with h1 | ⟨r', hr', h1, h2⟩
      · right; exact ⟨r, List.mem_cons_self _ _, by rw [h1, hu], h⟩
      · right
        refine ⟨r', List.mem_cons_of_mem _ hr', h1, ?_⟩
        rw [hu] at h2
        exact lt_trans h h2
    · have hu : best_update b r.1 r.2 = b := by simp [best_update, h]
      rw [hu]
      rcases ih b with h1 | ⟨r', hr', h1, h2⟩
      · left; exact h1
      · right; exact ⟨r', List.mem_cons_of_mem _ hr', h1, h2⟩

theorem best_of_records_fixed (l : List (Nat × ℚ)) :
    ∀ b : BestConfiguration, (∀ r ∈ l, r.2 ≤ b.speedup) → best_of_records b l = b := by
  induction l with
  | nil => intro b _; rfl
  | cons r l ih =>
    intro b h
    rw [best_of_records_cons]
    have hu : best_update b r.1 r.2 = b := by
      have := h r (List.mem_cons_self _ _)
      simp [best_update, not_lt.mpr this]
    rw [hu]
    exact ih b (fun r' hr' => h r' (List.mem_cons_of_mem _ hr'))

theorem sweep_best_succ (speedup : Nat → ℚ) (m : Nat) :
    sweep_best speedup (m + 1) = best_update (sweep_best speedup m) (m + 1) (speedup (m + 1)) := by
  simp [sweep_best, List.range_succ, List.foldl_append]

/-- Loop invariant of the sweep after thread counts `1..m` have been measured. -/
theorem sweep_best_invariant (speedup : Nat → ℚ) (m : Nat) :
    ((∀ t, 1 ≤ t → t ≤ m → speedup t ≤ 0) ∧ sweep_best speedup m = best_init) ∨
    (1 ≤ (sweep_best speedup m).threadCount ∧ (sweep_best speedup m).threadCount ≤ m ∧
      speedup (sweep_best speedup m).threadCount = (sweep_best speedup m).speedup ∧
      0 < (sweep_best speedup m).speedup ∧
      (∀ t, 1 ≤ t → t ≤ m → speedup t ≤ (sweep_best speedup m).speedup) ∧
      (∀ t, 1 ≤ t → t < (sweep_best speedup m).threadCount →
        speedup t < (sweep_best speedup m).speedup)) := by
  induction m with
  | zero =>
    left
    refine ⟨?_, rfl⟩
    intro t h1 h2; omega
  | succ m ih =>
    rw [sweep_best_succ]
    by_cases h : speedup (m + 1) > (sweep_best speedup m).speedup
    · have hu : best_update (sweep_best speedup m) (m + 1) (speedup (m + 1))
          = ⟨m + 1, speedup (m + 1)⟩ := by simp [best_update, h]
      rw [hu]
      right
      rcases ih with ⟨hle, hb⟩ | ⟨_, _, _, hpos, hmax, _⟩
      · rw [hb] at h
        have h0 : (0 : ℚ) < speedup (m + 1) := h
        refine ⟨by simp, le_refl _, rfl, h0, ?_, ?_⟩
        · intro t h1 h2
          rcases Nat.lt_or_ge t (m + 1) with h3 | h3
          · exact le_trans (hle t h1 (by omega)) (le_of_lt h0)
          · have : t = m + 1 := by omega
            subst this; exact le_refl _
        · intro t h1 h2
          exact lt_of_le_of_lt (hle t h1 (by simp at h2; omega)) h0
      · refine ⟨by simp, le_refl _, rfl, lt_trans hpos h, ?_, ?_⟩
        · intro t h1 h2
          rcases Nat.lt_or_ge t (m + 1) with h3 | h3
          · exact le_of_lt (lt_of_le_of_lt (hmax t h1 (by omega)) h)
          · have : t = m + 1 := by omega
            subst this; exact le_refl _
        · intro t h1 h2
          exact lt_of_le_of_lt (hmax t h1 (by simp at h2; omega)) h
    · have hu : best_update (sweep_best speedup m) (m + 1) (speedup (m + 1))
          = sweep_best speedup m := by simp [best_update, h]
      rw [hu]
      have hle := not_lt.mp h
      rcases ih with ⟨hle0, hb⟩ | ⟨h1, h2, h3, hpos, hmax, hfirst⟩
      · left
        refine ⟨?_, hb⟩
        intro t h1 h2
        rcases Nat.lt_or_ge t (m + 1) with h3 | h3
        · exact hle0 t h1 (by omega)
        · have : t = m + 1 := by omega
          subst this
          rw [hb] at hle; exact hle
      · right
        refine ⟨h1, by omega, h3, hpos, ?_, hfirst⟩
        intro t ht1 ht2
        rcases Nat.lt_or_ge t (m + 1) with h4 | h4
        · exact hmax t ht1 (by omega)
        · have : t = m + 1 := by omega
          subst this; exact hle

/-! ### Claims on best-configuration tracking -/

/-- C1: for every sweep over thread counts `1..limit` whose speedups contain a value `> 0`,
the final best speedup is the maximum of the sequence (it is attained and bounds every entry),
and the final best thread count is the lowest thread count attaining it; a later equal speedup
does not replace it. -/
theorem C1_best_is_first_maximum (speedup : Nat → ℚ) (limit : Nat)
    (hpos : ∃ t, 1 ≤ t ∧ t ≤ limit ∧ 0 < speedup t) :
    (1 ≤ (sweep_best speedup limit).threadCount ∧ (sweep_best speedup limit).threadCount ≤ limit) ∧
    (sweep_best speedup limit).speedup = speedup (sweep_best speedup limit).threadCount ∧
    (∀ t, 1 ≤ t → t ≤ limit → speedup t ≤ (sweep_best speedup limit).speedup) ∧
    (∀ t, 1 ≤ t → t ≤ limit → speedup t = (sweep_best speedup limit).speedup →
      (sweep_best speedup limit).threadCount ≤ t) ∧
    (∀ m, limit ≤ m → (∀ t, limit < t → t ≤ m → speedup t ≤ (sweep_best speedup limit).speedup) →
      sweep_best speedup m = sweep_best speedup limit) := by
  obtain ⟨t0, ht1, ht2, ht3⟩ := hpos
  rcases sweep_best_invariant speedup limit with ⟨hle, _⟩ | ⟨h1, h2, h3, _, hmax, hfirst⟩
  · exact absurd (hle t0 ht1 ht2) (not_le.mpr ht3)
  · refine ⟨⟨h1, h2⟩, h3.symm, hmax, ?_, ?_⟩
    · intro t ht1 _ heq
      by_contra hc
      have := hfirst t ht1 (by omega)
      rw [heq] at this
      exact lt_irrefl _ this
    · intro m hm
      induction m with
      | zero =>
        intro _
        have : limit = 0 := by omega
        subst this; rfl
      | succ m ih =>
        intro hlater
        rcases Nat.lt_or_ge limit (m + 1) with h4 | h4
        · rw [sweep_best_succ, ih (by omega) (fun t a b => hlater t a (by omega))]
          have := hlater (m + 1) h4 (le_refl _)
          simp [best_update, not_lt.mpr this]
        · have : limit = m + 1 := by omega
          subst this; rfl

/-- C1 witness: speedups 1, 3, 3, 2 at thread counts 1..4 select thread count 2. -/
theorem C1_best_is_first_maximum_witness :
    (sweep_best (fun t => if t = 1 then 1 else if t = 4 then 2 else 3) 4).threadCount = 2 ∧
    (sweep_best (fun t => if t = 1 then 1 else if t = 4 then 2 else 3) 4).speedup = 3 := by
  have h := C1_best_is_first_maximum (fun t => if t = 1 then 1 else if t = 4 then 2 else 3) 4
    ⟨1, by norm_num, by norm_num, by norm_num⟩
  obtain ⟨⟨ha, hb⟩, h2, h3, h4, _⟩ := h
  have e2 := h4 2 (by norm_num) (by norm_num)
  have b2 := h3 2 (by norm_num) (by norm_num)
  generalize sweep_best (fun t => if t = 1 then (1 : ℚ) else if t = 4 then 2 else 3) 4 = B at *
  obtain ⟨tc, sp⟩ := B
  simp only at ha hb h2 e2 b2 ⊢
  interval_cases tc
  · norm_num at h2; rw [h2] at b2; norm_num at b2
  · norm_num at h2; exact ⟨rfl, h2⟩
  · norm_num at h2; rw [h2] at e2; norm_num at e2
  · norm_num at h2; rw [h2] at b2; norm_num at b2

/-- C2 (counterexample): two distinct records with equal speedup, fed in the two possible
orders, give different final configurations: the record fed first wins the tie. -/
theorem C2_order_dependent_on_ties :
    [((1 : Nat), (2 : ℚ)), (2, 2)].Nodup ∧
    [((1 : Nat), (2 : ℚ)), (2, 2)].Perm [(2, 2), (1, 2)] ∧
    best_of_records best_init [(1, 2), (2, 2)] = ⟨1, 2⟩ ∧
    best_of_records best_init [(2, 2), (1, 2)] = ⟨2, 2⟩ ∧
    best_of_records best_init [(1, 2), (2, 2)] ≠ best_of_records best_init [(2, 2), (1, 2)] := by
  have e1 : best_of_records best_init [(1, 2), (2, 2)] = ⟨1, 2⟩ := by
    simp [best_of_records, best_update, best_init]
  have e2 : best_of_records best_init [(2, 2), (1, 2)] = ⟨2, 2⟩ := by
    simp [best_of_records, best_update, best_init]
  refine ⟨by simp, List.Perm.swap _ _ _, e1, e2, ?_⟩
  rw [e1, e2]
  simp

/-- C2 (amended): over any permutation of the records the final best speedup is the same, and
feeding the same records a second time changes nothing; the final thread count is also the same
when every record attaining a positive maximum speedup carries the same thread count. -/
theorem C2_best_selection_amended (l1 l2 : List (Nat × ℚ)) (hperm : l1.Perm l2) :
    (best_of_records best_init l1).speedup = (best_of_records best_init l2).speedup ∧
    ((∀ r1 ∈ l1, ∀ r2 ∈ l1, 0 < r1.2 → r1.2 = r2.2 → (∀ r ∈ l1, r.2 ≤ r1.2) → r1.1 = r2.1) →
      best_of_records best_init l1 = best_of_records best_init l2) ∧
    best_of_records (best_of_records best_init l1) l1 = best_of_records best_init l1 := by
  obtain ⟨g1, m1⟩ := best_of_records_ge l1 best_init
  obtain ⟨g2, m2⟩ := best_of_records_ge l2 best_init
  have hsp : (best_of_records best_init l1).speedup = (best_of_records best_init l2).speedup := by
    apply le_antisymm
    · rcases best_of_records_origin l1 best_init with h | ⟨r, hr, h, _⟩
      · rw [h]; exact g2
      · rw [h]; exact m2 r (hperm.mem_iff.mp hr)
    · rcases best_of_records_origin l2 best_init with h | ⟨r, hr, h, _⟩
      · rw [h]; exact g1
      · rw [h]; exact m1 r (hperm.mem_iff.mpr hr)
  refine ⟨hsp, ?_, best_of_records_fixed l1 _ m1⟩
  intro htie
  rcases best_of_records_origin l1 best_init with h1 | ⟨r1, hr1, h1, p1⟩
  · rcases best_of_records_origin l2 best_init with h2 | ⟨r2, _, h2, p2⟩
    · rw [h1, h2]
    · rw [h1, h2] at hsp
      simp only at hsp
      rw [← hsp] at p2
      exact absurd p2 (lt_irrefl _)
  · rcases best_of_records_origin l2 best_init with h2 | ⟨r2, hr2, h2, _⟩
    · rw [h1, h2] at hsp
      simp only at hsp
      rw [hsp] at p1
      exact absurd p1 (lt_irrefl _)
    · rw [h1, h2] at hsp
      simp only at hsp
      have hmax : ∀ r ∈ l1, r.2 ≤ r1.2 := by
        intro r hr
        have := m1 r hr
        rw [h1] at this
        exact this
      have ht := htie r1 hr1 r2 (hperm.mem_iff.mpr hr2) p1 hsp hmax
      rw [h1, h2, ht, hsp]

/-- C2 witness: records with a unique maximum, fed in two orders and fed twice. -/
theorem C2_best_selection_amended_witness :
    best_of_records best_init [(1, 1), (2, 3), (3, 2)]
      = best_of_records best_init [(3, 2), (2, 3), (1, 1)] ∧
    best_of_records (best_of_records best_init [((1 : Nat), (1 : ℚ)), (2, 3), (3, 2)])
        [(1, 1), (2, 3), (3, 2)]
      = best_of_records best_init [(1, 1), (2, 3), (3, 2)] := by
  have hp : [((1 : Nat), (1 : ℚ)), (2, 3), (3, 2)].Perm [(3, 2), (2, 3), (1, 1)] := by decide
  have h := C2_best_selection_amended [(1, 1), (2, 3), (3, 2)] [(3, 2), (2, 3), (1, 1)] hp
  refine ⟨h.2.1 ?_, h.2.2⟩
  intro r1 hr1 r2 hr2 _ heq hmax
  simp only [List.mem_cons, List.mem_singleton, List.not_mem_nil, or_false] at hr1 hr2
  rcases hr1 with rfl | rfl | rfl <;> rcases hr2 with rfl | rfl | rfl <;>
    first
    | rfl
    | (norm_num at heq)

/-! ### Lemmas on the static schedule -/

theorem static_chunk_eq (n nthreads i : Nat) :
    static_chunk n nthreads i = (static_start n nthreads i, static_start n nthreads (i + 1)) := by
  unfold static_chunk static_start
  simp only
  have e1 : (n / nthreads + 1) * i = n / nthreads * i + i := by ring
  have e2 : n / nthreads * (i + 1) = n / nthreads * i + n / nthreads := by ring
  split
  · rename_i h
    rw [Nat.min_eq_left (le_of_lt h), Nat.min_eq_left h, e1, e2]
    simp only [Prod.mk.injEq, true_and]
    omega
  · rename_i h
    rw [Nat.min_eq_right (not_lt.mp h), Nat.min_eq_right (by omega), e2]
    simp only [Prod.mk.injEq, true_and]
    omega

theorem static_start_mono (n nthreads i : Nat) :
    static_start n nthreads i ≤ static_start n nthreads (i + 1) := by
  unfold static_start
  rw [Nat.mul_add]
  have : min i (n % nthreads) ≤ min (i + 1) (n % nthreads) := by
    simp only [Nat.min_def]; split <;> split <;> omega
  omega

theorem static_start_zero (n nthreads : Nat) : static_start n nthreads 0 = 0 := by
  simp [static_start]

theorem static_start_last (n nthreads : Nat) (h : 1 ≤ nthreads) :
    static_start n nthreads nthreads = n := by
  unfold static_start
  rw [Nat.min_eq_right (le_of_lt (Nat.mod_lt _ h))]
  exact Nat.div_add_mod' n nthreads

theorem static_block_eq (n nthreads i : Nat) :
    static_block n nthreads i = List.range' (static_start n nthreads i)
      (static_start n nthreads (i + 1) - static_start n nthreads i) := by
  simp [static_block, static_chunk_eq]

theorem static_blocks_upto (n nthreads k : Nat) :
    ((List.range k).map (static_block n nthreads)).flatten
      = List.range' 0 (static_start n nthreads k) := by
  induction k with
  | zero => simp [static_start_zero]
  | succ k ih =>
    rw [List.range_succ, List.map_append, List.flatten_append, ih]
    simp only [List.map_cons, List.map_nil, List.flatten_cons, List.flatten_nil, List.append_nil]
    rw [static_block_eq]
    have hm := static_start_mono n nthreads k
    have := List.range'_append 0 (static_start n nthreads k)
      (static_start n nthreads (k + 1) - static_start n nthreads k) 1
    simp only [one_mul, zero_add] at this
    rw [this]
    congr 1
    omega

/-- The static blocks, concatenated in thread order, are exactly `0, 1, .., n - 1`. -/
theorem static_blocks_flatten (n nthreads : Nat) (h : 1 ≤ nthreads) :
    (static_blocks n nthreads).flatten = List.range n := by
  unfold static_blocks
  rw [static_blocks_upto, static_start_last n nthreads h, List.range_eq_range']

theorem IsExecution.mem_iff {n nthreads : Nat} {order : List Nat} (h : 1 ≤ nthreads)
    (hs : IsExecution (static_blocks n nthreads) order) (i : Nat) : i ∈ order ↔ i < n := by
  unfold IsExecution at hs
  rw [static_blocks_flatten n nthreads h] at hs
  rw [hs.mem_iff, List.mem_range]

theorem IsExecution.nodup {n nthreads : Nat} {order : List Nat} (h : 1 ≤ nthreads)
    (hs : IsExecution (static_blocks n nthreads) order) : order.Nodup := by
  unfold IsExecution at hs
  rw [static_blocks_flatten n nthreads h] at hs
  exact hs.nodup_iff.mpr (List.nodup_range n)

/-! ### Lemmas on loops of buffer writes -/

/-- If every iteration either stores `w` at offset `p` or leaves offset `p` alone, so does the
whole loop. -/
theorem foldl_keep_or_set {ι β : Type} (g : (Nat → β) → ι → (Nat → β)) (p : Nat) (w : β)
    (l : List ι) (h : ∀ i ∈ l, ∀ R, g R i p = w ∨ g R i p = R p) :
    ∀ R0, l.foldl g R0 p = w ∨ l.foldl g R0 p = R0 p := by
  induction l with
  | nil => intro R0; right; rfl
  | cons i l ih =>
    intro R0
    rw [List.foldl_cons]
    rcases ih (fun j hj => h j (List.mem_cons_of_mem _ hj)) (g R0 i) with h1 | h1
    · left; exact h1
    · rw [h1]; exact h i (List.mem_cons_self _ _) R0

/-- If moreover some iteration of the loop always stores `w` at `p`, the loop leaves `w` there,
whatever the order of the iterations and the previous contents. -/
theorem foldl_set {ι β : Type} (g : (Nat → β) → ι → (Nat → β)) (p : Nat) (w : β)
    (l : List ι) (h : ∀ i ∈ l, ∀ R, g R i p = w ∨ g R i p = R p)
    (i0 : ι) (hi0 : i0 ∈ l) (h0 : ∀ R, g R i0 p = w) :
    ∀ R0, l.foldl g R0 p = w := by
  induction l with
  | nil => simp at hi0
  | cons i l ih =>
    intro R0
    rw [List.foldl_cons]
    have hl : ∀ j ∈ l, ∀ R, g R j p = w ∨ g R j p = R p :=
      fun j hj => h j (List.mem_cons_of_mem _ hj)
    rcases List.mem_cons.mp hi0 with heq | hmem
    · subst heq
      rcases foldl_keep_or_set g p w l hl (g R0 i0) with h1 | h1
      · exact h1
      · rw [h1]; exact h0 R0
    · exact ih hl hmem (g R0 i)

theorem INDEX_inj (DIM r c row col : Nat) (hc : c < DIM) (hcol : col < DIM)
    (h : INDEX DIM r c = INDEX DIM row col) : r = row ∧ c = col := by
  unfold INDEX at h
  have h1 : (r * DIM + c) / DIM = (row * DIM + col) / DIM := by rw [h]
  have h2 : (r * DIM + c) % DIM = (row * DIM + col) % DIM := by rw [h]
  have hD : 0 < DIM := by omega
  rw [Nat.mul_comm r, Nat.mul_comm row, Nat.mul_add_div hD, Nat.mul_add_div hD,
    Nat.div_eq_of_lt hc, Nat.div_eq_of_lt hcol] at h1
  rw [Nat.mul_comm r, Nat.mul_comm row, Nat.mul_add_mod, Nat.mul_add_mod,
    Nat.mod_eq_of_lt hc, Nat.mod_eq_of_lt hcol] at h2
  exact ⟨by omega, h2⟩

section KernelLemmas
variable {α : Type} [Zero α] [Add α] [Mul α]

theorem cell_body_keep_or_set (DIM : Nat) (A B : Nat → α) (r c : Nat) (hc : c < DIM)
    (row col : Nat) (hcol : col < DIM) (R : Nat → α) :
    cell_body DIM A B R row col (INDEX DIM r c) = accumulate DIM A B r c ∨
    cell_body DIM A B R row col (INDEX DIM r c) = R (INDEX DIM r c) := by
  unfold cell_body
  by_cases h : INDEX DIM r c = INDEX DIM row col
  · left
    obtain ⟨e1, e2⟩ := INDEX_inj DIM r c row col hc hcol h
    subst e1; subst e2
    simp
  · right
    simp [Function.update_apply, h]

theorem row_body_keep_or_set (DIM : Nat) (A B : Nat → α) (r c : Nat) (hc : c < DIM)
    (row : Nat) (R : Nat → α) :
    row_body DIM A B R row (INDEX DIM r c) = accumulate DIM A B r c ∨
    row_body DIM A B R row (INDEX DIM r c) = R (INDEX DIM r c) := by
  unfold row_body
  apply foldl_keep_or_set (fun res col => cell_body DIM A B res row col)
  intro col hcol R
  exact cell_body_keep_or_set DIM A B r c hc row col (List.mem_range.mp hcol) R

theorem row_body_set (DIM : Nat) (A B : Nat → α) (r c : Nat) (hc : c < DIM) (R : Nat → α) :
    row_body DIM A B R r (INDEX DIM r c) = accumulate DIM A B r c := by
  unfold row_body
  apply foldl_set (fun res col => cell_body DIM A B res r col) _ _ _ _ c (List.mem_range.mpr hc)
  · intro R; simp [cell_body]
  · intro col hcol R
    exact cell_body_keep_or_set DIM A B r c hc r col (List.mem_range.mp hcol) R

/-- A row loop run over any sequence of rows that contains row `r` leaves the accumulated
product in every cell of row `r`. -/
theorem rows_loop_cell (DIM : Nat) (A B : Nat → α) (rows : List Nat) (r c : Nat)
    (hr : r ∈ rows) (hc : c < DIM) (R0 : Nat → α) :
    rows.foldl (row_body DIM A B) R0 (INDEX DIM r c) = accumulate DIM A B r c := by
  apply foldl_set (row_body DIM A B) _ _ _ _ r hr
  · intro R; exact row_body_set DIM A B r c hc R
  · intro row _ R
    exact row_body_keep_or_set DIM A B r c hc row R

/-- A collapsed loop run over any sequence of flattened iterations below `DIM * DIM` that
contains iteration `r * DIM + c` leaves the accumulated product in cell `(r, c)`. -/
theorem cells_loop_cell (DIM : Nat) (A B : Nat → α) (sched : List Nat) (r c : Nat)
    (hmem : INDEX DIM r c ∈ sched) (hc : c < DIM) (R0 : Nat → α) :
    sched.foldl (fun res idx => cell_body DIM A B res (idx / DIM) (idx % DIM)) R0 (INDEX DIM r c)
      = accumulate DIM A B r c := by
  have hD : 0 < DIM := by omega
  apply foldl_set (fun res idx => cell_body DIM A B res (idx / DIM) (idx % DIM)) _ _ _ _
    (INDEX DIM r c) hmem
  · intro R
    have e1 : INDEX DIM r c / DIM = r := by
      unfold INDEX
      rw [Nat.mul_comm, Nat.mul_add_div hD, Nat.div_eq_of_lt hc]; rfl
    have e2 : INDEX DIM r c % DIM = c := by
      unfold INDEX
      rw [Nat.mul_comm, Nat.mul_add_mod, Nat.mod_eq_of_lt hc]
    simp only [e1, e2]
    simp [cell_body]
  · intro idx _ R
    exact cell_body_keep_or_set DIM A B r c hc (idx / DIM) (idx % DIM) (Nat.mod_lt _ hD) R

theorem INDEX_lt (DIM r c : Nat) (hr : r < DIM) (hc : c < DIM) : INDEX DIM r c < DIM * DIM := by
  unfold INDEX
  have : (r + 1) * DIM ≤ DIM * DIM := Nat.mul_le_mul_right DIM hr
  have e : (r + 1) * DIM = r * DIM + DIM := by ring
  omega

end KernelLemmas

/-! ### Lemmas on the matrix kernel -/

/-- Values of the scenario `DIM = 4` read by cell `(0, 0)`: row 0 of `A` is `0 1 2 3` and
column 0 of `B` is `0 1 2 3`. -/
theorem setup_matrices_four (m : Matrices) :
    accumulate 4 (setup_matrices 4 m).matrix_A (setup_matrices 4 m).matrix_B 0 0 = 14 := by
  simp [accumulate, setup_matrices, setup_cell, INDEX, List.range_succ, Function.update_apply]
  norm_num

theorem foldl_add_eq_sum (f : Nat → ℚ) (n : Nat) :
    (List.range n).foldl (fun acc k => acc + f k) 0 = ∑ k in Finset.range n, f k := by
  induction n with
  | zero => simp
  | succ n ih =>
    rw [List.range_succ, List.foldl_append, Finset.sum_range_succ]
    simp only [List.foldl_cons, List.foldl_nil]
    rw [← ih]

theorem accumulate_eq_sum (DIM : Nat) (A B : Nat → ℚ) (r c : Nat) :
    accumulate DIM A B r c
      = ∑ k in Finset.range DIM, A (INDEX DIM r k) * B (INDEX DIM k c) :=
  foldl_add_eq_sum (fun k => A (INDEX DIM r k) * B (INDEX DIM k c)) DIM

/-! ### Lemmas on the AXPY kernel -/

theorem daxpy_loop_apply {α : Type} [Add α] [Mul α] (a : α) (Y : Nat → α) (order : List Nat)
    (hnd : order.Nodup) :
    ∀ (X : Nat → α) (i : Nat),
      daxpy_loop a Y order X i = if i ∈ order then a * X i + Y i else X i := by
  induction order with
  | nil => intro X i; simp [daxpy_loop]
  | cons j l ih =>
    intro X i
    obtain ⟨hj, hl⟩ := List.nodup_cons.mp hnd
    have step : daxpy_loop a Y (j :: l) X
        = daxpy_loop a Y l (Function.update X j (a * X j + Y j)) := rfl
    rw [step, ih hl]
    by_cases hi : i ∈ l
    · have hne : i ≠ j := fun e => hj (e ▸ hi)
      simp [hi, Function.update_apply, hne]
    · by_cases hij : i = j
      · subst hij; simp [hi]
      · simp [hi, hij, Function.update_apply]

/-- The kernel under any scheduler leaves `a * X[i] + Y[i]` at every index below `len`. -/
theorem daxpy_kernel_apply {α : Type} [Add α] [Mul α] (len : Nat) (a : α) (X Y : Nat → α)
    (t : Nat) (ht : 1 ≤ t) (sched : List (List Nat) → List Nat) (h : IsScheduler sched)
    (i : Nat) (hi : i < len) : daxpy_kernel len a Y t sched X i = a * X i + Y i := by
  unfold daxpy_kernel
  rw [daxpy_loop_apply a Y _ ((h _).nodup ht), if_pos (((h _).mem_iff ht i).mpr hi)]

theorem foldl_update_apply {β : Type} (f : Nat → β) (l : List Nat) (i : Nat) (hi : i ∈ l)
    (R0 : Nat → β) : l.foldl (fun R idx => Function.update R idx (f idx)) R0 i = f i := by
  apply foldl_set (fun R idx => Function.update R idx (f idx)) i (f i) l _ i hi
  · intro R; simp
  · intro j _ R
    by_cases h : i = j
    · subst h; left; simp
    · right; simp [Function.update_apply, h]

theorem daxpy_reset_apply (len : Nat) (X : Nat → ℚ) (i : Nat) (hi : i < len) :
    daxpy_reset len X i = (i : ℚ) * 0.5 :=
  foldl_update_apply (fun idx => (idx : ℚ) * 0.5) _ i (List.mem_range.mpr hi) X

theorem foldl_pair_fst {β γ : Type} (f : Nat → β) (g : Nat → γ) (l : List Nat) :
    ∀ (X : Nat → β) (Y : Nat → γ),
      (l.foldl (fun XY idx => (Function.update XY.1 idx (f idx), Function.update XY.2 idx (g idx)))
        (X, Y)).1 = l.foldl (fun R idx => Function.update R idx (f idx)) X := by
  induction l with
  | nil => intro X Y; rfl
  | cons j l ih => intro X Y; simp only [List.foldl_cons]; exact ih _ _

theorem foldl_pair_snd {β γ : Type} (f : Nat → β) (g : Nat → γ) (l : List Nat) :
    ∀ (X : Nat → β) (Y : Nat → γ),
      (l.foldl (fun XY idx => (Function.update XY.1 idx (f idx), Function.update XY.2 idx (g idx)))
        (X, Y)).2 = l.foldl (fun R idx => Function.update R idx (g idx)) Y := by
  induction l with
  | nil => intro X Y; rfl
  | cons j l ih => intro X Y; simp only [List.foldl_cons]; exact ih _ _

theorem daxpy_init_apply (len : Nat) (X Y : Nat → ℚ) (i : Nat) (hi : i < len) :
    (daxpy_init len X Y).1 i = (i : ℚ) * 0.5 ∧
    (daxpy_init len X Y).2 i = (((len : Int) - (i : Int) : Int) : ℚ) * 0.3 := by
  unfold daxpy_init
  rw [foldl_pair_fst, foldl_pair_snd]
  exact ⟨foldl_update_apply _ _ i (List.mem_range.mpr hi) X,
    foldl_update_apply (fun idx => (((len : Int) - (idx : Int) : Int) : ℚ) * 0.3) _ i
      (List.mem_range.mpr hi) Y⟩

/-! ### Claims on the AXPY kernel -/

/-- C5: under the static partition of `[0, len)` over `t >= 1` threads the blocks list every
index exactly once, so under every scheduler the kernel writes every index exactly once and leaves
`X[i] = a * X0[i] + Y[i]`; the output is the same for every other thread count. With the
initial values of the program (`N = 65536`, `a = 2.5`) this gives `X[0] = 19660.8`. -/
theorem C5_axpy_partition_independent {α : Type} [Add α] [Mul α]
    (len : Nat) (a : α) (X0 Y : Nat → α) (t : Nat) (ht : 1 ≤ t)
    (sched : List (List Nat) → List Nat) (h : IsScheduler sched) :
    (static_blocks len t).flatten = List.range len ∧
    (∀ i, i < len → (sched (static_blocks len t)).count i = 1) ∧
    (∀ i, i < len → daxpy_kernel len a Y t sched X0 i = a * X0 i + Y i) ∧
    (∀ t2 sched2, 1 ≤ t2 → IsScheduler sched2 →
      ∀ i, i < len → daxpy_kernel len a Y t2 sched2 X0 i = daxpy_kernel len a Y t sched X0 i) ∧
    (∀ (P Q : Nat → ℚ),
      daxpy_kernel N scalar (daxpy_init N P Q).2 t sched (daxpy_init N P Q).1 0 = 19660.8) := by
  refine ⟨static_blocks_flatten len t ht, ?_, daxpy_kernel_apply len a X0 Y t ht sched h, ?_, ?_⟩
  · intro i hi
    exact List.count_eq_one_of_mem ((h _).nodup ht) (((h _).mem_iff ht i).mpr hi)
  · intro t2 sched2 ht2 h2 i hi
    rw [daxpy_kernel_apply len a X0 Y t2 ht2 sched2 h2 i hi,
      daxpy_kernel_apply len a X0 Y t ht sched h i hi]
  · intro P Q
    rw [daxpy_kernel_apply N scalar _ _ t ht sched h 0 (by norm_num [N])]
    obtain ⟨e1, e2⟩ := daxpy_init_apply N P Q 0 (by norm_num [N])
    rw [e1, e2]
    norm_num [scalar, N]

/-- C5 witness: `N = 65536` split over 3 threads (3 does not divide `N`), threads run one
after the other, on the program's initial vectors. -/
theorem C5_axpy_partition_independent_witness :
    (static_blocks N 3).flatten = List.range N ∧
    daxpy_kernel N scalar (daxpy_init N (fun _ => 0) (fun _ => 0)).2 3 List.flatten
      (daxpy_init N (fun _ => 0) (fun _ => 0)).1 0 = 19660.8 := by
  have h := C5_axpy_partition_independent N scalar (daxpy_init N (fun _ => 0) (fun _ => 0)).1
    (daxpy_init N (fun _ => 0) (fun _ => 0)).2 3 (by norm_num) List.flatten
    (fun _ => List.Perm.refl _)
  exact ⟨h.1, h.2.2.2.2 (fun _ => 0) (fun _ => 0)⟩

/-! ### Lemmas on the AXPY sweep -/

theorem foldl_invariant {σ ι : Type} (P : σ → Prop) (f : σ → ι → σ) (l : List ι)
    (h : ∀ s, ∀ i ∈ l, P s → P (f s i)) : ∀ s, P s → P (l.foldl f s) := by
  induction l with
  | nil => intro s hs; exact hs
  | cons i l ih =>
    intro s hs
    rw [List.foldl_cons]
    exact ih (fun s j hj => h s j (List.mem_cons_of_mem _ hj)) _ (h s i (List.mem_cons_self _ _) hs)

theorem timed_iteration_inv (len : Nat) (a : ℚ) (Y0 : Nat → ℚ)
    (sched : List (List Nat) → List Nat)
    (thread_num iter : Nat) (ht : 1 ≤ thread_num) (hs : IsScheduler sched)
    (st : DaxpyState) (hinv : DaxpyInv len a Y0 st) :
    DaxpyInv len a Y0 (timed_iteration len a sched thread_num iter st) := by
  obtain ⟨hX, hY, hlog⟩ := hinv
  refine ⟨fun i hi => daxpy_reset_apply len _ i hi, hY, ?_⟩
  intro s hmem i hi
  simp only [timed_iteration, List.mem_append, List.mem_singleton] at hmem
  rcases hmem with hmem | rfl
  · exact hlog s hmem i hi
  · refine ⟨hX i hi, by simp [hY], ?_⟩
    simp only
    rw [daxpy_kernel_apply len a st.X st.Y thread_num ht sched hs i hi, hX i hi, hY]

theorem thread_iteration_inv (len : Nat) (a : ℚ) (Y0 : Nat → ℚ) (iterations : Nat)
    (warm : Nat → List Nat) (sched : Nat → Nat → List (List Nat) → List Nat) (thread_num : Nat)
    (ht : 1 ≤ thread_num)
    (hs : ∀ iter, IsScheduler (sched thread_num iter))
    (st : DaxpyState) (hinv : DaxpyInv len a Y0 st) :
    DaxpyInv len a Y0 (thread_iteration len a iterations warm sched st thread_num) := by
  unfold thread_iteration
  apply foldl_invariant (DaxpyInv len a Y0)
  · intro s iter _ hs'
    exact timed_iteration_inv len a Y0 _ thread_num iter ht (hs iter) s hs'
  · obtain ⟨_, hY, hlog⟩ := hinv
    exact ⟨fun i hi => daxpy_reset_apply len _ i hi, hY, hlog⟩

theorem thread_iteration_ids (len : Nat) (a : ℚ) (iterations : Nat)
    (warm : Nat → List Nat) (sched : Nat → Nat → List (List Nat) → List Nat) (thread_num : Nat)
    (st : DaxpyState) :
    log_ids (thread_iteration len a iterations warm sched st thread_num)
      = log_ids st ++ (List.range iterations).map (fun iter => (thread_num, iter)) := by
  unfold thread_iteration
  induction iterations with
  | zero => simp [log_ids]
  | succ n ih =>
    rw [List.range_succ, List.foldl_append, List.map_append, ← List.append_assoc, ← ih]
    simp [log_ids, timed_iteration]

theorem daxpy_main_ids (len : Nat) (a : ℚ) (max_threads iterations : Nat)
    (warm : Nat → List Nat) (sched : Nat → Nat → List (List Nat) → List Nat) (X Y : Nat → ℚ) :
    log_ids (daxpy_main len a max_threads iterations warm sched X Y)
      = (List.range max_threads).flatMap
          (fun i => (List.range iterations).map (fun iter => (i + 1, iter))) := by
  unfold daxpy_main
  induction max_threads with
  | zero => simp [log_ids]
  | succ n ih =>
    rw [List.range_succ, List.foldl_append, List.flatMap_append]
    simp only [List.foldl_cons, List.foldl_nil]
    rw [thread_iteration_ids, ih]
    simp

theorem ids_length (m n : Nat) :
    ((List.range m).flatMap (fun i => (List.range n).map (fun iter => (i + 1, iter)))).length
      = m * n := by
  induction m with
  | zero => simp
  | succ k ih =>
    rw [List.range_succ, List.flatMap_append, List.length_append, ih]
    simp [Nat.succ_mul]

theorem daxpy_main_inv (len : Nat) (a : ℚ) (max_threads iterations : Nat)
    (warm : Nat → List Nat) (sched : Nat → Nat → List (List Nat) → List Nat) (X Y : Nat → ℚ)
    (hs : ∀ t iter, IsScheduler (sched t iter)) :
    DaxpyInv len a (daxpy_init len X Y).2
      (daxpy_main len a max_threads iterations warm sched X Y) := by
  unfold daxpy_main
  apply foldl_invariant (DaxpyInv len a (daxpy_init len X Y).2)
  · intro s i _ hinv
    exact thread_iteration_inv len a _ iterations warm sched (i + 1) (by omega)
      (fun iter => hs (i + 1) iter) s hinv
  · refine ⟨fun i hi => (daxpy_init_apply len X Y i hi).1, rfl, ?_⟩
    intro s hmem
    simp at hmem

/-! ### Claims on the AXPY sweep -/

/-- C8: the sweep of `daxpy_q1.c` records one timed repetition for every thread count `1..16`
and every repetition `0..99`; each of them starts with `X[i] = 0.5 * i` and `Y[i]` at its
initial value `0.3 * (len - i)` for every `i < len`, and each leaves the same output
`X[i] = a * (0.5 * i) + 0.3 * (len - i)`. -/
theorem C8_axpy_reset_invariant (len : Nat) (a : ℚ) (warm : Nat → List Nat)
    (sched : Nat → Nat → List (List Nat) → List Nat) (X Y : Nat → ℚ)
    (hs : ∀ t iter, IsScheduler (sched t iter)) :
    (∀ t iter, (t, iter) ∈ log_ids (daxpy_main len a 16 100 warm sched X Y) ↔
      (1 ≤ t ∧ t ≤ 16 ∧ iter < 100)) ∧
    (daxpy_main len a 16 100 warm sched X Y).log.length = 1600 ∧
    (∀ s ∈ (daxpy_main len a 16 100 warm sched X Y).log, ∀ i, i < len →
      s.X_start i = 0.5 * (i : ℚ) ∧
      s.Y_start i = 0.3 * ((len : ℚ) - (i : ℚ)) ∧
      s.X_out i = a * (0.5 * (i : ℚ)) + 0.3 * ((len : ℚ) - (i : ℚ))) ∧
    (∀ s1 ∈ (daxpy_main len a 16 100 warm sched X Y).log,
      ∀ s2 ∈ (daxpy_main len a 16 100 warm sched X Y).log, ∀ i, i < len →
      s1.X_start i = s2.X_start i ∧ s1.Y_start i = s2.Y_start i ∧ s1.X_out i = s2.X_out i) := by
  obtain ⟨_, _, hlog⟩ := daxpy_main_inv len a 16 100 warm sched X Y hs
  have hids := daxpy_main_ids len a 16 100 warm sched X Y
  refine ⟨?_, ?_, ?_, ?_⟩
  · intro t iter
    rw [hids]
    simp only [List.mem_flatMap, List.mem_map, List.mem_range, Prod.mk.injEq]
    constructor
    · rintro ⟨i, hi, j, hj, rfl, rfl⟩
      omega
    · rintro ⟨h1, h2, h3⟩
      exact ⟨t - 1, by omega, iter, h3, by omega, rfl⟩
  · have : (log_ids (daxpy_main len a 16 100 warm sched X Y)).length = 1600 := by
      rw [hids, ids_length]
    simpa [log_ids] using this
  · intro s hmem i hi
    obtain ⟨h1, h2, h3⟩ := hlog s hmem i hi
    have hY := (daxpy_init_apply len X Y i hi).2
    rw [hY] at h2 h3
    refine ⟨by rw [h1]; ring, ?_, ?_⟩
    · rw [h2]; push_cast; ring
    · rw [h3]; push_cast; ring
  · intro s1 hm1 s2 hm2 i hi
    obtain ⟨h1, h2, h3⟩ := hlog s1 hm1 i hi
    obtain ⟨k1, k2, k3⟩ := hlog s2 hm2 i hi
    exact ⟨h1.trans k1.symm, h2.trans k2.symm, h3.trans k3.symm⟩

/-- C8 witness: the program's sizes (`N = 65536`, `a = 2.5`), every parallel loop executed
thread after thread. -/
theorem C8_axpy_reset_invariant_witness :
    (daxpy_main N scalar 16 100 (fun t => (static_blocks N t).flatten)
      (fun _ _ => List.flatten) (fun _ => 0) (fun _ => 0)).log.length = 1600 ∧
    (∀ s ∈ (daxpy_main N scalar 16 100 (fun t => (static_blocks N t).flatten)
      (fun _ _ => List.flatten) (fun _ => 0) (fun _ => 0)).log,
      s.X_start 2 = 1 ∧ s.X_out 0 = 19660.8) := by
  have h := C8_axpy_reset_invariant N scalar (fun t => (static_blocks N t).flatten)
    (fun _ _ => List.flatten) (fun _ => 0) (fun _ => 0)
    (fun _ _ _ => List.Perm.refl _)
  refine ⟨h.2.1, ?_⟩
  intro s hmem
  obtain ⟨e1, _, _⟩ := h.2.2.1 s hmem 2 (by norm_num [N])
  obtain ⟨_, _, e3⟩ := h.2.2.1 s hmem 0 (by norm_num [N])
  refine ⟨by rw [e1]; norm_num, ?_⟩
  rw [e3]; norm_num [scalar, N]

/-! ### Lemmas on the pi kernel -/

theorem foldl_pi_accumulate (delta : ℚ) (l : List Nat) :
    ∀ a : ℚ, l.foldl (pi_accumulate delta) a
      = a + (l.map (fun idx => pi_accumulate delta 0 idx)).sum := by
  induction l with
  | nil => intro a; simp
  | cons i l ih =>
    intro a
    rw [List.foldl_cons, ih, List.map_cons, List.sum_cons]
    simp only [pi_accumulate]
    ring

theorem foldl_local_totals (delta : ℚ) (order : List (List Nat)) :
    ∀ a : ℚ, order.foldl (fun total part => total + local_total delta part) a
      = a + (order.flatten.map (fun idx => pi_accumulate delta 0 idx)).sum := by
  induction order with
  | nil => intro a; simp
  | cons part order ih =>
    intro a
    rw [List.foldl_cons, ih, List.flatten_cons, List.map_append, List.sum_append]
    unfold local_total
    rw [foldl_pi_accumulate]
    norm_num
    ring

theorem pi_threaded_eq_sequential (n threads : Nat) (split : Nat → Nat → List (List Nat))
    (crit : List (List Nat) → List (List Nat))
    (h : (crit (split n threads)).flatten.Perm (List.range n)) :
    compute_pi_threaded n threads split crit = compute_pi_sequential n := by
  unfold compute_pi_threaded compute_pi_sequential
  simp only
  rw [foldl_local_totals, foldl_pi_accumulate]
  rw [(h.map _).sum_eq]

theorem map_range_sum (f : Nat → ℚ) (n : Nat) :
    ((List.range n).map f).sum = ∑ idx in Finset.range n, f idx := by
  induction n with
  | zero => simp
  | succ n ih =>
    rw [List.range_succ, List.map_append, List.sum_append, Finset.sum_range_succ, ih]
    simp

theorem pi_sequential_eq_sum (n : Nat) :
    compute_pi_sequential n
      = (1 / (n : ℚ)) * ∑ idx in Finset.range n, 4 / (1 + (((idx : ℚ) + 0.5) / (n : ℚ)) ^ 2) := by
  unfold compute_pi_sequential
  simp only
  rw [foldl_pi_accumulate]
  have : ∀ l : List Nat, (l.map (fun idx => pi_accumulate (1.0 / (n : ℚ)) 0 idx)).sum
      = (l.map (fun idx : Nat => 4 / (1 + (((idx : ℚ) + 0.5) / (n : ℚ)) ^ 2))).sum := by
    intro l
    congr 1
    apply List.map_congr_left
    intro idx _
    simp only [pi_accumulate]
    norm_num
    ring
  rw [this, map_range_sum]
  norm_num

/-! ### Claims on the pi kernel -/

/-- C6: for `n >= 1` steps and `t >= 1` workers, whatever the partition of `[0, n)` into `t`
sub-ranges and whatever the order in which the local sums are merged, `compute_pi_threaded`
stores the value `compute_pi_sequential` stores, `(1/n)` times the sum of
`4 / (1 + ((idx + 0.5)/n)^2)`; the static blocks are such a partition; for `n = 4` the value is
`0.25 * (256/65 + 256/73 + 256/89 + 256/113)`. -/
theorem C6_pi_threaded_matches_sequential (n t : Nat) (_hn : 1 ≤ n) (ht : 1 ≤ t)
    (split : Nat → Nat → List (List Nat)) (hsplit : IsWorkShare split)
    (crit : List (List Nat) → List (List Nat)) (hcrit : IsCriticalOrder crit) :
    compute_pi_threaded n t split crit = compute_pi_sequential n ∧
    compute_pi_sequential n
      = (1 / (n : ℚ)) * ∑ idx in Finset.range n, 4 / (1 + (((idx : ℚ) + 0.5) / (n : ℚ)) ^ 2) ∧
    IsWorkShare static_blocks ∧
    compute_pi_sequential 4 = 0.25 * (256 / 65 + 256 / 73 + 256 / 89 + 256 / 113) := by
  refine ⟨?_, pi_sequential_eq_sum n, ?_, ?_⟩
  · exact pi_threaded_eq_sequential n t split crit
      ((hcrit _).flatten.trans (hsplit n t ht).2)
  · intro m k hk
    refine ⟨by simp [static_blocks], ?_⟩
    rw [static_blocks_flatten m k hk]
  · rw [pi_sequential_eq_sum]
    norm_num [Finset.sum_range_succ]

/-- C6 witness: `n = 4` steps over 2 workers with the static blocks `{0, 1}` and `{2, 3}`, the
second worker merging first. -/
theorem C6_pi_threaded_matches_sequential_witness :
    compute_pi_threaded 4 2 static_blocks List.reverse
      = 0.25 * (256 / 65 + 256 / 73 + 256 / 89 + 256 / 113) := by
  have h := C6_pi_threaded_matches_sequential 4 2 (by norm_num) (by norm_num)
    static_blocks (by
      intro m k hk
      refine ⟨by simp [static_blocks], ?_⟩
      rw [static_blocks_flatten m k hk])
    List.reverse (fun parts => List.reverse_perm parts)
  exact h.1.trans h.2.2.2

/-! ### Lemmas on the metrics -/

theorem cumulative_eq_sum (time : Nat → ℚ) (reps : Nat) :
    cumulative time reps = ∑ iter in Finset.range reps, time iter := by
  unfold cumulative
  norm_num
  exact foldl_add_eq_sum time reps

theorem daxpy_sweep_succ (time : Nat → Nat → ℚ) (m : Nat) :
    daxpy_sweep time (m + 1) = daxpy_metrics time (daxpy_sweep time m) (m + 1) := by
  simp [daxpy_sweep, List.range_succ, List.foldl_append]

/-- After thread counts `1..m` (`m >= 1`) the baseline is the mean time measured at 1 thread
and every row divides it by the row's mean time. -/
theorem daxpy_sweep_rows (time : Nat → Nat → ℚ) (m : Nat) :
    (1 ≤ m → (daxpy_sweep time m).1 = cumulative (time 1) 100 / ((100 : Nat) : ℚ) * 1000.0) ∧
    (daxpy_sweep time m).2.map (fun r => r.thread_num) = (List.range m).map (fun i => i + 1) ∧
    ∀ r ∈ (daxpy_sweep time m).2,
      r.mean_time = cumulative (time r.thread_num) 100 / ((100 : Nat) : ℚ) * 1000.0 ∧
      r.speedup_ratio
        = (cumulative (time 1) 100 / ((100 : Nat) : ℚ) * 1000.0) / r.mean_time := by
  induction m with
  | zero => simp [daxpy_sweep]
  | succ m ih =>
    obtain ⟨ih1, ih2, ih3⟩ := ih
    rw [daxpy_sweep_succ]
    by_cases hm : m = 0
    · subst hm
      simp [daxpy_metrics, daxpy_sweep, List.range_succ]
    · have hm1 : 1 ≤ m := by omega
      have hne : ¬ (m + 1 = 1) := by omega
      refine ⟨?_, ?_, ?_⟩
      · intro _
        simp only [daxpy_metrics, if_neg hne]
        exact ih1 hm1
      · simp only [daxpy_metrics, List.map_append, ih2, List.range_succ]
        simp
      · intro r hr
        simp only [daxpy_metrics, if_neg hne, List.mem_append, List.mem_singleton] at hr
        rcases hr with hr | rfl
        · exact ih3 r hr
        · simp only
          rw [ih1 hm1]
          exact ⟨trivial, rfl⟩

/-! ### Claims on the metrics -/

/-- C7: in the matrix and pi sweeps the reported speedup is `baseline / elapsed` with `elapsed`
the sum of the repetition times over the repetition count (5 and 3), and the reported
efficiency is `speedup / t * 100`; in the AXPY sweep every row's speedup is the mean time
measured at 1 thread over the row's mean time, so with a non-zero mean time the row of
`thread_num = 1` reports exactly 1. -/
theorem C7_speedup_and_efficiency (baseline : ℚ) (time : Nat → ℚ) (t : Nat)
    (dtime : Nat → Nat → ℚ) :
    ((matrix_metrics baseline time t).elapsedSeconds = (∑ iter in Finset.range 5, time iter) / 5 ∧
      (matrix_metrics baseline time t).speedup
        = baseline / (matrix_metrics baseline time t).elapsedSeconds ∧
      (matrix_metrics baseline time t).efficiencyPct
        = (matrix_metrics baseline time t).speedup / (t : ℚ) * 100) ∧
    ((pi_metrics baseline time t).elapsedSeconds = (∑ iter in Finset.range 3, time iter) / 3 ∧
      (pi_metrics baseline time t).speedup
        = baseline / (pi_metrics baseline time t).elapsedSeconds ∧
      (pi_metrics baseline time t).efficiencyPct
        = (pi_metrics baseline time t).speedup / (t : ℚ) * 100) ∧
    ((daxpy_sweep dtime 16).2.map (fun r => r.thread_num) = (List.range 16).map (fun i => i + 1) ∧
      ∀ r ∈ (daxpy_sweep dtime 16).2,
        r.mean_time = (∑ iter in Finset.range 100, dtime r.thread_num iter) / 100 * 1000 ∧
        r.speedup_ratio
          = ((∑ iter in Finset.range 100, dtime 1 iter) / 100 * 1000) / r.mean_time ∧
        (r.thread_num = 1 → r.mean_time ≠ 0 → r.speedup_ratio = 1)) := by
  refine ⟨⟨?_, rfl, ?_⟩, ⟨?_, rfl, ?_⟩, ?_, ?_⟩
  · simp only [matrix_metrics, NUM_ITERATIONS, cumulative_eq_sum]
    norm_num
  · simp only [matrix_metrics]
    norm_num
  · simp only [pi_metrics, ITER, cumulative_eq_sum]
    norm_num
  · simp only [pi_metrics]
    norm_num
  · exact (daxpy_sweep_rows dtime 16).2.1
  · intro r hr
    obtain ⟨h1, h2⟩ := (daxpy_sweep_rows dtime 16).2.2 r hr
    have e : ∀ k, cumulative (dtime k) 100 / ((100 : Nat) : ℚ) * 1000.0
        = (∑ iter in Finset.range 100, dtime k iter) / 100 * 1000 := by
      intro k
      rw [cumulative_eq_sum]
      norm_num
    rw [e] at h1 h2
    refine ⟨h1, h2, ?_⟩
    intro ht hne
    rw [h2, ← ht, ← h1]
    exact div_self hne

/-- C7 witness: repetition times of 2 s at every thread count against a baseline of 4 s, and
AXPY repetition times of 3 s: speedup 2, efficiency 50 % at 4 threads, AXPY speedup 1 at 1
thread. -/
theorem C7_speedup_and_efficiency_witness :
    (matrix_metrics 4 (fun _ => 2) 4).speedup = 2 ∧
    (matrix_metrics 4 (fun _ => 2) 4).efficiencyPct = 50 ∧
    (pi_metrics 4 (fun _ => 2) 4).efficiencyPct = 50 ∧
    (∀ r ∈ (daxpy_sweep (fun _ _ => 3) 16).2, r.thread_num = 1 → r.speedup_ratio = 1) := by
  have h := C7_speedup_and_efficiency 4 (fun _ => 2) 4 (fun _ _ => 3)
  obtain ⟨⟨m1, m2, m3⟩, ⟨p1, p2, p3⟩, _, hd⟩ := h
  have em : (matrix_metrics 4 (fun _ => 2) 4).speedup = 2 := by
    rw [m2, m1]; norm_num
  have ep : (pi_metrics 4 (fun _ => 2) 4).speedup = 2 := by
    rw [p2, p1]; norm_num
  refine ⟨em, ?_, ?_, ?_⟩
  · rw [m3, em]; norm_num
  · rw [p3, ep]; norm_num
  · intro r hr h1
    obtain ⟨e1, _, e3⟩ := hd r hr
    apply e3 h1
    rw [e1]
    norm_num

/-! ### Lemmas on validation -/

theorem cell_mismatch_iff (DIM : Nat) (reference computed : Nat → ℚ) (row col : Nat) :
    cell_mismatch DIM reference computed row col = true ↔
      abs (reference (INDEX DIM row col) - computed (INDEX DIM row col)) > 1e-6 := by
  unfold cell_mismatch
  simp only [decide_eq_true_eq]
  by_cases h : reference (INDEX DIM row col) - computed (INDEX DIM row col) < 0
  · rw [if_pos h, abs_of_neg h]
  · rw [if_neg h, abs_of_nonneg (not_lt.mp h)]

theorem sample_points_of_ge (DIM s start : Nat) (hs : 1 ≤ s) (h : DIM ≤ start) :
    sample_points DIM s start = [] := by
  unfold sample_points
  have : (DIM - start + s - 1) / s = 0 := by
    rw [Nat.sub_eq_zero_of_le h]
    exact Nat.div_eq_of_lt (by omega)
  rw [this]; rfl

theorem sample_points_of_lt (DIM s start : Nat) (hs : 1 ≤ s) (h : start < DIM) :
    sample_points DIM s start = start :: sample_points DIM s (start + s) := by
  unfold sample_points
  have hk : (DIM - start + s - 1) / s = (DIM - (start + s) + s - 1) / s + 1 := by
    rcases Nat.lt_or_ge (DIM - start) s with h1 | h1
    · have e1 : DIM - (start + s) = 0 := by omega
      rw [e1]
      have e2 : (0 + s - 1) / s = 0 := Nat.div_eq_of_lt (by omega)
      rw [e2]
      have e3 : DIM - start + s - 1 = (DIM - start - 1) + s := by omega
      rw [e3, Nat.add_div_right _ (by omega), Nat.div_eq_of_lt (by omega)]
    · have e3 : DIM - start + s - 1 = (DIM - (start + s) + s - 1) + s := by omega
      rw [e3, Nat.add_div_right _ (by omega)]
  rw [hk, List.range_succ_eq_map, List.map_cons, List.map_map]
  simp only [zero_mul, add_zero, List.cons.injEq, true_and]
  apply List.map_congr_left
  intro j _
  simp only [Function.comp, Nat.succ_eq_add_one]
  ring

theorem mem_sample_points (DIM s start : Nat) (hs : 1 ≤ s) (x : Nat) :
    x ∈ sample_points DIM s start ↔ x < DIM ∧ ∃ j, x = start + j * s := by
  constructor
  · intro hx
    unfold sample_points at hx
    obtain ⟨j, hj, rfl⟩ := List.mem_map.mp hx
    refine ⟨?_, j, rfl⟩
    have hj := List.mem_range.mp hj
    have h1 : (j + 1) * s ≤ DIM - start + s - 1 := by
      have := (Nat.le_div_iff_mul_le (by omega : 0 < s)).mp (Nat.succ_le_of_lt hj)
      exact this
    have e : (j + 1) * s = j * s + s := by ring
    omega
  · rintro ⟨hx, j, rfl⟩
    unfold sample_points
    refine List.mem_map.mpr ⟨j, List.mem_range.mpr ?_, rfl⟩
    apply Nat.lt_of_succ_le
    apply (Nat.le_div_iff_mul_le (by omega : 0 < s)).mpr
    have e : (j + 1) * s = j * s + s := by ring
    rw [Nat.succ_eq_add_one, e]
    omega

/-- The column loop with a positive stride returns within `DIM - col + 1` loop tests: it reports
a mismatch exactly when a sample point of the row mismatches, inspects only sample points, and
inspects all of them when none mismatches. -/
theorem validate_cols_spec (DIM s : Nat) (reference computed : Nat → ℚ) (row : Nat)
    (hs : 1 ≤ s) :
    ∀ fuel col, DIM - col < fuel →
      ∃ b tr, validate_cols DIM s reference computed row fuel col = some (b, tr) ∧
        (b = true ↔ ∃ c ∈ sample_points DIM s col,
          cell_mismatch DIM reference computed row c = true) ∧
        (∀ q ∈ tr, q.1 = row ∧ q.2 ∈ sample_points DIM s col) ∧
        (b = false → tr = (sample_points DIM s col).map (fun c => (row, c))) := by
  intro fuel
  induction fuel with
  | zero => intro col h; omega
  | succ fuel ih =>
    intro col h
    by_cases hcol : col < DIM
    · rw [sample_points_of_lt DIM s col hs hcol]
      by_cases hbad : cell_mismatch DIM reference computed row col = true
      · refine ⟨true, [(row, col)], by simp [validate_cols, hcol, hbad], ?_, ?_, ?_⟩
        · simp [hbad]
        · intro q hq
          simp only [List.mem_singleton] at hq
          subst hq
          simp
        · intro hf; simp at hf
      · obtain ⟨b, tr, e, h1, h2, h3⟩ := ih (col + s) (by omega)
        refine ⟨b, (row, col) :: tr, by simp [validate_cols, hcol, hbad, e], ?_, ?_, ?_⟩
        · rw [h1]
          simp [hbad]
        · intro q hq
          rcases List.mem_cons.mp hq with rfl | hq
          · simp
          · exact ⟨(h2 q hq).1, List.mem_cons_of_mem _ (h2 q hq).2⟩
        · intro hf
          rw [h3 hf]; rfl
    · rw [sample_points_of_ge DIM s col hs (not_lt.mp hcol)]
      refine ⟨false, [], by simp [validate_cols, hcol], by simp, by simp, by simp⟩

/-- The row loop with a positive stride returns within the given fuel: it returns `0` exactly
when a cell of the sampling grid mismatches and `1` otherwise, inspects only cells of the grid,
and inspects the whole grid when it returns `1`. -/
theorem validate_rows_spec (DIM s : Nat) (reference computed : Nat → ℚ) (hs : 1 ≤ s) :
    ∀ fuel row, DIM - row + DIM + 1 < fuel →
      ∃ ret tr, validate_rows DIM s reference computed fuel row = some (ret, tr) ∧
        (ret = 0 ∨ ret = 1) ∧
        (ret = 0 ↔ ∃ r ∈ sample_points DIM s row, ∃ c ∈ sample_points DIM s 0,
          cell_mismatch DIM reference computed r c = true) ∧
        (∀ q ∈ tr, q.1 ∈ sample_points DIM s row ∧ q.2 ∈ sample_points DIM s 0) ∧
        (ret = 1 → tr = (sample_points DIM s row).flatMap
          (fun r => (sample_points DIM s 0).map (fun c => (r, c)))) := by
  intro fuel
  induction fuel with
  | zero => intro row h; omega
  | succ fuel ih =>
    intro row h
    by_cases hrow : row < DIM
    · rw [sample_points_of_lt DIM s row hs hrow]
      obtain ⟨b, cells, e, c1, c2, c3⟩ :=
        validate_cols_spec DIM s reference computed row hs fuel 0 (by omega)
      cases b with
      | true =>
        refine ⟨0, cells, by simp [validate_rows, hrow, e], Or.inl rfl, ?_, ?_, ?_⟩
        · simp only [true_iff]
          obtain ⟨c, hc, hbad⟩ := c1.mp rfl
          exact ⟨row, List.mem_cons_self _ _, c, hc, hbad⟩
        · intro q hq
          obtain ⟨q1, q2⟩ := c2 q hq
          exact ⟨by rw [q1]; exact List.mem_cons_self _ _, q2⟩
        · intro hf; simp at hf
      | false =>
        have hnone : ¬ ∃ c ∈ sample_points DIM s 0,
            cell_mismatch DIM reference computed row c = true := by
          intro hex
          have := c1.mpr hex
          simp at this
        obtain ⟨ret, tr, e2, r0, r1, r2, r3⟩ := ih (row + s) (by omega)
        refine ⟨ret, cells ++ tr, by simp [validate_rows, hrow, e, e2], r0, ?_, ?_, ?_⟩
        · rw [r1]
          constructor
          · rintro ⟨r, hr, c, hc, hbad⟩
            exact ⟨r, List.mem_cons_of_mem _ hr, c, hc, hbad⟩
          · rintro ⟨r, hr, c, hc, hbad⟩
            rcases List.mem_cons.mp hr with rfl | hr
            · exact absurd ⟨c, hc, hbad⟩ hnone
            · exact ⟨r, hr, c, hc, hbad⟩
        · intro q hq
          rcases List.mem_append.mp hq with hq | hq
          · obtain ⟨q1, q2⟩ := c2 q hq
            exact ⟨by rw [q1]; exact List.mem_cons_self _ _, q2⟩
          · exact ⟨List.mem_cons_of_mem _ (r2 q hq).1, (r2 q hq).2⟩
        · intro hf
          rw [r3 hf, c3 rfl]
          simp [List.flatMap_cons]
    · rw [sample_points_of_ge DIM s row hs (not_lt.mp hrow)]
      refine ⟨1, [], by simp [validate_rows, hrow], Or.inr rfl, by simp, by simp, by simp⟩

/-- With stride 0 the column loop never leaves a matching cell. -/
theorem validate_cols_stuck (DIM : Nat) (reference computed : Nat → ℚ) (row col : Nat)
    (hcol : col < DIM) (hok : cell_mismatch DIM reference computed row col = false) :
    ∀ fuel, validate_cols DIM 0 reference computed row fuel col = none := by
  intro fuel
  induction fuel with
  | zero => rfl
  | succ fuel ih => simp [validate_cols, hcol, hok, ih]

theorem validate_rows_stuck (DIM : Nat) (reference computed : Nat → ℚ)
    (hD : 0 < DIM) (hok : cell_mismatch DIM reference computed 0 0 = false) :
    ∀ fuel, validate_rows DIM 0 reference computed fuel 0 = none := by
  intro fuel
  cases fuel with
  | zero => rfl
  | succ fuel =>
    simp [validate_rows, hD, validate_cols_stuck DIM reference computed 0 0 hD hok fuel]

theorem mem_sample_grid (DIM s : Nat) (hs : 1 ≤ s) (q : Nat × Nat) :
    q ∈ sample_grid DIM s ↔
      (q.1 < DIM ∧ s ∣ q.1) ∧ (q.2 < DIM ∧ s ∣ q.2) := by
  have hp : ∀ x, x ∈ sample_points DIM s 0 ↔ x < DIM ∧ s ∣ x := by
    intro x
    rw [mem_sample_points DIM s 0 hs]
    constructor
    · rintro ⟨h, j, rfl⟩
      exact ⟨h, ⟨j, by ring⟩⟩
    · rintro ⟨h, j, rfl⟩
      exact ⟨h, j, by ring⟩
  unfold sample_grid
  simp only [List.mem_flatMap, List.mem_map]
  constructor
  · rintro ⟨r, hr, c, hc, rfl⟩
    exact ⟨(hp r).mp hr, (hp c).mp hc⟩
  · rintro ⟨h1, h2⟩
    exact ⟨q.1, (hp _).mpr h1, q.2, (hp _).mpr h2, rfl⟩

/-- For `DIM >= 10` the function returns `0` or `1` within the fuel, and `0` exactly when a
sampled coordinate differs by more than the tolerance. -/
theorem validate_result_iff (DIM : Nat) (hD : 10 ≤ DIM) (reference computed : Nat → ℚ)
    (fuel : Nat) (hfuel : 2 * DIM + 2 ≤ fuel) :
    (validate_result DIM reference computed fuel = some 0 ∨
      validate_result DIM reference computed fuel = some 1) ∧
    (validate_result DIM reference computed fuel = some 0 ↔
      ∃ row col, (row < DIM ∧ DIM / 10 ∣ row) ∧ (col < DIM ∧ DIM / 10 ∣ col) ∧
        abs (reference (INDEX DIM row col) - computed (INDEX DIM row col)) > 1e-6) := by
  have hs : 1 ≤ DIM / 10 := (Nat.le_div_iff_mul_le (by norm_num)).mpr (by omega)
  obtain ⟨ret, tr, e, r0, r1, _, _⟩ :=
    validate_rows_spec DIM (DIM / 10) reference computed hs fuel 0 (by omega)
  have er : validate_result DIM reference computed fuel = some ret := by
    simp [validate_result, validate_output, e]
  rw [er]
  refine ⟨by rcases r0 with h | h <;> simp [h], ?_⟩
  simp only [Option.some.injEq]
  rw [r1]
  constructor
  · rintro ⟨r, hr, c, hc, hbad⟩
    have hg := (mem_sample_grid DIM (DIM / 10) hs (r, c)).mp (by
      unfold sample_grid
      exact List.mem_flatMap.mpr ⟨r, hr, List.mem_map.mpr ⟨c, hc, rfl⟩⟩)
    exact ⟨r, c, hg.1, hg.2, (cell_mismatch_iff _ _ _ _ _).mp hbad⟩
  · rintro ⟨r, c, h1, h2, hbad⟩
    have hg := (mem_sample_grid DIM (DIM / 10) hs (r, c)).mpr ⟨h1, h2⟩
    unfold sample_grid at hg
    obtain ⟨r2, hr2, hm⟩ := List.mem_flatMap.mp hg
    obtain ⟨c2, hc2, heq⟩ := List.mem_map.mp hm
    simp only [Prod.mk.injEq] at heq
    obtain ⟨rfl, rfl⟩ := heq
    exact ⟨r2, hr2, c2, hc2, (cell_mismatch_iff _ _ _ _ _).mpr hbad⟩

/-- Buffers that agree on every cell of the matrix pass validation. -/
theorem validate_result_of_eq (DIM : Nat) (hD : 10 ≤ DIM) (reference computed : Nat → ℚ)
    (fuel : Nat) (hfuel : 2 * DIM + 2 ≤ fuel)
    (h : ∀ r c, r < DIM → c < DIM → computed (INDEX DIM r c) = reference (INDEX DIM r c)) :
    validate_result DIM reference computed fuel = some 1 := by
  obtain ⟨h01, hiff⟩ := validate_result_iff DIM hD reference computed fuel hfuel
  rcases h01 with h0 | h1
  · obtain ⟨r, c, hr, hc, hbad⟩ := hiff.mp h0
    rw [h r c hr.1 hc.1, sub_self, abs_zero] at hbad
    norm_num at hbad
  · exact h1

/-! ### Claims on validation -/

/-- C3: with `MATRIX_DIM = 1000`, `validate_output` returns (given fuel for its loop tests), and
it returns `0` if and only if some sampled coordinate `(row, col)`, both multiples of
`MATRIX_DIM / 10` below `MATRIX_DIM`, has `|reference - computed| > 1e-6`; so corrupting one
sampled cell by more than `1e-6` is flagged, and inputs that differ by at most `1e-6`
everywhere, in particular by exactly `1e-7` or exactly `1e-6` at one cell, are not. -/
theorem C3_validate_output_flags (reference computed : Nat → ℚ) (fuel : Nat)
    (hfuel : 2 * MATRIX_DIM + 2 ≤ fuel) :
    (validate_result MATRIX_DIM reference computed fuel = some 0 ∨
      validate_result MATRIX_DIM reference computed fuel = some 1) ∧
    (validate_result MATRIX_DIM reference computed fuel = some 0 ↔
      ∃ row col, (row < MATRIX_DIM ∧ MATRIX_DIM / 10 ∣ row) ∧
        (col < MATRIX_DIM ∧ MATRIX_DIM / 10 ∣ col) ∧
        abs (reference (INDEX MATRIX_DIM row col) - computed (INDEX MATRIX_DIM row col))
          > 1e-6) ∧
    (∀ row col v, (row < MATRIX_DIM ∧ MATRIX_DIM / 10 ∣ row) →
      (col < MATRIX_DIM ∧ MATRIX_DIM / 10 ∣ col) →
      abs (reference (INDEX MATRIX_DIM row col) - v) > 1e-6 →
      validate_result MATRIX_DIM reference
        (Function.update reference (INDEX MATRIX_DIM row col) v) fuel = some 0) ∧
    ((∀ i, abs (reference i - computed i) ≤ 1e-6) →
      validate_result MATRIX_DIM reference computed fuel = some 1) ∧
    (∀ i d, (abs d = 1e-7 ∨ abs d = 1e-6) →
      validate_result MATRIX_DIM reference (Function.update reference i (reference i + d)) fuel
        = some 1) := by
  have main : ∀ comp : Nat → ℚ, _ :=
    fun comp => validate_result_iff MATRIX_DIM (by norm_num [MATRIX_DIM]) reference comp fuel hfuel
  have pass : ∀ comp : Nat → ℚ, (∀ i, abs (reference i - comp i) ≤ 1e-6) →
      validate_result MATRIX_DIM reference comp fuel = some 1 := by
    intro comp hall
    rcases (main comp).1 with h | h
    · obtain ⟨r, c, _, _, hbad⟩ := (main comp).2.mp h
      exact absurd (hall _) (not_le.mpr hbad)
    · exact h
  refine ⟨(main computed).1, (main computed).2, ?_, pass computed, ?_⟩
  · intro row col v hr hc hv
    apply (main _).2.mpr
    exact ⟨row, col, hr, hc, by simpa using hv⟩
  · intro i d hd
    apply pass
    intro k
    by_cases hk : k = i
    · subst hk
      simp only [Function.update_same, sub_add_cancel_left, abs_neg]
      rcases hd with h | h
      · rw [h]; norm_num
      · rw [h]
    · simp only [Function.update_apply, if_neg hk, sub_self, abs_zero]
      norm_num

/-- C3 witness: a reference of zeros against a copy whose sampled cell `(100, 200)` is `1`. -/
theorem C3_validate_output_flags_witness :
    validate_result MATRIX_DIM (fun _ => 0)
      (Function.update (fun _ => 0) (INDEX MATRIX_DIM 100 200) 1) 2002 = some 0 ∧
    validate_result MATRIX_DIM (fun _ => 0)
      (Function.update (fun _ => 0) 7 ((fun _ => (0 : ℚ)) 7 + 1e-7)) 2002 = some 1 := by
  have h := C3_validate_output_flags (fun _ => 0)
    (Function.update (fun _ => 0) (INDEX MATRIX_DIM 100 200) 1) 2002 (by norm_num [MATRIX_DIM])
  refine ⟨?_, h.2.2.2.2 7 (1e-7) (Or.inl (by norm_num [abs_of_pos]))⟩
  exact h.2.2.1 100 200 1 (by norm_num [MATRIX_DIM]) (by norm_num [MATRIX_DIM])
    (by norm_num)

/-- C10: for every `DIM >= 10`, `validate_output` returns within `2 * DIM + 2` loop tests per
loop; every cell it inspects is a coordinate `(i * s, j * s)` with `s = DIM / 10` and both
components below `DIM`, its offset is below `DIM * DIM` (and below `2^31` when
`DIM <= 46340`); when no sampled cell mismatches it returns `1` after inspecting the whole
sampling grid, which has exactly 100 cells for `DIM = 1000`. For `1 <= DIM < 10` the stride is
0 and, when cell `(0, 0)` is within tolerance, it never returns, whatever the fuel. -/
theorem C10_validate_output_termination (DIM : Nat) (reference computed : Nat → ℚ) :
    (10 ≤ DIM → ∀ fuel, 2 * DIM + 2 ≤ fuel →
      ∃ ret cells, validate_output DIM reference computed fuel = some (ret, cells) ∧
        (∀ q ∈ cells, (∃ i j, q = (i * (DIM / 10), j * (DIM / 10))) ∧ q.1 < DIM ∧ q.2 < DIM ∧
          INDEX DIM q.1 q.2 < DIM * DIM ∧ (DIM ≤ 46340 → INDEX DIM q.1 q.2 < 2 ^ 31)) ∧
        ((∀ q ∈ sample_grid DIM (DIM / 10),
            cell_mismatch DIM reference computed q.1 q.2 = false) →
          ret = 1 ∧ cells = sample_grid DIM (DIM / 10))) ∧
    (sample_grid 1000 (1000 / 10)).length = 100 ∧
    (1 ≤ DIM → DIM < 10 →
      abs (reference (INDEX DIM 0 0) - computed (INDEX DIM 0 0)) ≤ 1e-6 →
      ∀ fuel, validate_output DIM reference computed fuel = none) := by
  refine ⟨?_, ?_, ?_⟩
  · intro hD fuel hfuel
    have hs : 1 ≤ DIM / 10 := (Nat.le_div_iff_mul_le (by norm_num)).mpr (by omega)
    obtain ⟨ret, tr, e, r0, r1, r2, r3⟩ :=
      validate_rows_spec DIM (DIM / 10) reference computed hs fuel 0 (by omega)
    refine ⟨ret, tr, e, ?_, ?_⟩
    · intro q hq
      obtain ⟨q1, q2⟩ := r2 q hq
      obtain ⟨b1, i, hi⟩ := (mem_sample_points DIM (DIM / 10) 0 hs q.1).mp q1
      obtain ⟨b2, j, hj⟩ := (mem_sample_points DIM (DIM / 10) 0 hs q.2).mp q2
      have hlt := INDEX_lt DIM q.1 q.2 b1 b2
      refine ⟨⟨i, j, ?_⟩, b1, b2, hlt, ?_⟩
      · rw [zero_add] at hi hj
        rw [← hi, ← hj]
      · intro hbound
        have : DIM * DIM ≤ 46340 * 46340 := Nat.mul_le_mul hbound hbound
        omega
    · intro hall
      have hne : ret ≠ 0 := by
        intro h0
        obtain ⟨r, hr, c, hc, hbad⟩ := r1.mp h0
        have hmem : (r, c) ∈ sample_grid DIM (DIM / 10) := by
          unfold sample_grid
          exact List.mem_flatMap.mpr ⟨r, hr, List.mem_map.mpr ⟨c, hc, rfl⟩⟩
        have := hall (r, c) hmem
        simp only at this
        rw [this] at hbad
        exact Bool.noConfusion hbad
      have h1 : ret = 1 := by
        rcases r0 with h | h
        · exact absurd h hne
        · exact h
      exact ⟨h1, r3 h1⟩
  · decide
  · intro h1 h2 hok fuel
    have hs : DIM / 10 = 0 := Nat.div_eq_of_lt h2
    unfold validate_output
    rw [hs]
    apply validate_rows_stuck DIM reference computed (by omega)
    cases hb : cell_mismatch DIM reference computed 0 0 with
    | false => rfl
    | true => exact absurd hok (not_le.mpr ((cell_mismatch_iff _ _ _ _ _).mp hb))

/-- C10 witness: equal all-zero buffers; with `DIM = 1000` the function returns `1` after the
100 grid cells, with the scenario size `DIM = 4` it has not returned after 1000 loop tests. -/
theorem C10_validate_output_termination_witness :
    (∃ cells, validate_output 1000 (fun _ => 0) (fun _ => 0) 2002 = some (1, cells) ∧
      cells.length = 100) ∧
    validate_output 4 (fun _ => 0) (fun _ => 0) 1000 = none := by
  have h := C10_validate_output_termination 1000 (fun _ => 0) (fun _ => 0)
  have h4 := C10_validate_output_termination 4 (fun _ => 0) (fun _ => 0)
  obtain ⟨ret, cells, e, _, hgrid⟩ := h.1 (by norm_num) 2002 (by norm_num)
  obtain ⟨e1, e2⟩ := hgrid (by intro q _; simp [cell_mismatch]; norm_num)
  refine ⟨⟨cells, by rw [e, e1], by rw [e2]; exact h.2.1⟩, ?_⟩
  exact h4.2.2 (by norm_num) (by norm_num) (by norm_num) 1000

/-! ### Claims on the matrix kernel -/

/-- C4 (counterexample): in the scenario `DIM = 4`, `A[r][c] = r + c`, `B[r][c] = r - c` the
serial multiply leaves `14` in `Result[0][0]` (column 0 of `B` is `0 1 2 3`), not `-14`. -/
theorem C4_scenario_value_is_14 :
    sequential_multiply 4 scenario4.matrix_A scenario4.matrix_B scenario4.result_matrix
        (INDEX 4 0 0) = 14 ∧
    sequential_multiply 4 scenario4.matrix_A scenario4.matrix_B scenario4.result_matrix
        (INDEX 4 0 0) ≠ -14 := by
  have h : sequential_multiply 4 scenario4.matrix_A scenario4.matrix_B scenario4.result_matrix
      (INDEX 4 0 0) = 14 := by
    unfold sequential_multiply
    rw [rows_loop_cell 4 _ _ _ 0 0 (by simp) (by norm_num)]
    exact setup_matrices_four blank_matrices
  refine ⟨h, ?_⟩
  rw [h]; norm_num

/-- C4 (amended): for all `DIM x DIM` inputs, every thread count `t >= 1`, every scheduler of
the static blocks and any previous buffer contents, the row-wise and the grid strategy leave in
every cell `(r, c)` exactly the value the serial multiply leaves, the product accumulated in
ascending `k` (over `ℚ`: the sum of `A[r][k] * B[k][c]`), so for `DIM >= 10` the results of both
strategies pass `validate_output` against the serial result; in the scenario `DIM = 4` that
value is `14` at `(0, 0)`. -/
theorem C4_strategies_match_serial {α : Type} [Zero α] [Add α] [Mul α]
    (DIM : Nat) (A B : Nat → α) (t : Nat) (ht : 1 ≤ t) (R0 R1 R2 : Nat → α)
    (sched1 sched2 : List (List Nat) → List Nat)
    (h1 : IsScheduler sched1) (h2 : IsScheduler sched2) :
    (∀ r c, r < DIM → c < DIM →
      sequential_multiply DIM A B R0 (INDEX DIM r c) = accumulate DIM A B r c ∧
      parallel_version1 DIM A B t sched1 R1 (INDEX DIM r c)
        = sequential_multiply DIM A B R0 (INDEX DIM r c) ∧
      parallel_version2 DIM A B t sched2 R2 (INDEX DIM r c)
        = sequential_multiply DIM A B R0 (INDEX DIM r c)) ∧
    (∀ (P Q : Nat → ℚ) (r c : Nat), accumulate DIM P Q r c
      = ∑ k in Finset.range DIM, P (INDEX DIM r k) * Q (INDEX DIM k c)) ∧
    (∀ (P Q S0 S1 S2 : Nat → ℚ) (fuel : Nat), 10 ≤ DIM → 2 * DIM + 2 ≤ fuel →
      validate_result DIM (sequential_multiply DIM P Q S0)
        (parallel_version1 DIM P Q t sched1 S1) fuel = some 1 ∧
      validate_result DIM (sequential_multiply DIM P Q S0)
        (parallel_version2 DIM P Q t sched2 S2) fuel = some 1) ∧
    (∀ m : Matrices, sequential_multiply 4 (setup_matrices 4 m).matrix_A
      (setup_matrices 4 m).matrix_B (setup_matrices 4 m).result_matrix (INDEX 4 0 0) = 14) := by
  have key : ∀ (β : Type) [Zero β] [Add β] [Mul β] (P Q S0 S1 S2 : Nat → β) (r c : Nat),
      r < DIM → c < DIM →
      sequential_multiply DIM P Q S0 (INDEX DIM r c) = accumulate DIM P Q r c ∧
      parallel_version1 DIM P Q t sched1 S1 (INDEX DIM r c)
        = sequential_multiply DIM P Q S0 (INDEX DIM r c) ∧
      parallel_version2 DIM P Q t sched2 S2 (INDEX DIM r c)
        = sequential_multiply DIM P Q S0 (INDEX DIM r c) := by
    intro β _ _ _ P Q S0 S1 S2 r c hr hc
    have hs : sequential_multiply DIM P Q S0 (INDEX DIM r c) = accumulate DIM P Q r c :=
      rows_loop_cell DIM P Q _ r c (List.mem_range.mpr hr) hc S0
    refine ⟨hs, ?_, ?_⟩
    · rw [hs]
      exact rows_loop_cell DIM P Q _ r c (((h1 _).mem_iff ht r).mpr hr) hc S1
    · rw [hs]
      exact cells_loop_cell DIM P Q _ r c
        (((h2 _).mem_iff ht _).mpr (INDEX_lt DIM r c hr hc)) hc S2
  refine ⟨fun r c hr hc => key α A B R0 R1 R2 r c hr hc, accumulate_eq_sum DIM, ?_, ?_⟩
  · intro P Q S0 S1 S2 fuel hD hfuel
    exact ⟨validate_result_of_eq DIM hD _ _ fuel hfuel
        (fun r c hr hc => (key ℚ P Q S0 S1 S2 r c hr hc).2.1),
      validate_result_of_eq DIM hD _ _ fuel hfuel
        (fun r c hr hc => (key ℚ P Q S0 S1 S2 r c hr hc).2.2)⟩
  · intro m
    unfold sequential_multiply
    rw [rows_loop_cell 4 _ _ _ 0 0 (by simp) (by norm_num)]
    exact setup_matrices_four m

/-- C4 witness: the scenario `DIM = 4` run with 3 threads (4 is not a multiple of 3), once with
the threads running one after the other and once with all iterations in reverse order. -/
theorem C4_strategies_match_serial_witness :
    parallel_version1 4 scenario4.matrix_A scenario4.matrix_B 3 List.flatten
        scenario4.result_matrix (INDEX 4 0 0) = 14 ∧
    parallel_version2 4 scenario4.matrix_A scenario4.matrix_B 3 (fun bs => bs.flatten.reverse)
        scenario4.result_matrix (INDEX 4 0 0) = 14 := by
  have h := C4_strategies_match_serial 4 scenario4.matrix_A scenario4.matrix_B 3 (by norm_num)
    scenario4.result_matrix scenario4.result_matrix scenario4.result_matrix
    List.flatten (fun bs => bs.flatten.reverse)
    (fun _ => List.Perm.refl _) (fun bs => List.reverse_perm bs.flatten)
  obtain ⟨hcell, _, _, h14⟩ := h
  obtain ⟨_, hv1, hv2⟩ := hcell 0 0 (by norm_num) (by norm_num)
  have e := h14 blank_matrices
  exact ⟨hv1.trans e, hv2.trans e⟩

/-! ### Claims on the row partition -/

/-- No assignment of one contiguous block of rows per thread (as `schedule(static)` makes) can
give thread 0 exactly the rows with `row % t = 0` once `2 <= t < DIM`. -/
theorem contiguous_block_not_cyclic (DIM t lo hi : Nat) (ht : 2 ≤ t) (hD : t < DIM)
    (h : ∀ row, row < DIM → ((lo ≤ row ∧ row < hi) ↔ row % t = 0)) : False := by
  have h0 := (h 0 (by omega)).mpr (Nat.zero_mod t)
  have ht' := (h t (by omega)).mpr (Nat.mod_self t)
  have h1 := (h 1 (by omega)).mp ⟨by omega, by omega⟩
  rw [Nat.mod_eq_of_lt (by omega)] at h1
  omega

/-- C9: at the failing input `num_threads = 2`, `MATRIX_DIM = 1000`, the static schedule of
`parallel_version1` gives thread 0 the rows `0 .. 499` and thread 1 the rows `500 .. 999`:
thread 0 processes row 1 although `1 % 2 = 1`, and does not process row 998 although
`998 % 2 = 0`; for every `num_threads` in `2 .. THREAD_LIMIT` the block of thread 0 starts at
row 0 and contains row 1, for which `1 % num_threads = 1`. -/
theorem C9_row_partition_is_blocked :
    static_blocks MATRIX_DIM 2 = [List.range' 0 500, List.range' 500 500] ∧
    (1 ∈ static_block MATRIX_DIM 2 0 ∧ 1 % 2 ≠ 0) ∧
    (998 ∉ static_block MATRIX_DIM 2 0 ∧ 998 % 2 = 0) ∧
    (List.range' 2 (THREAD_LIMIT - 1)).all (fun t =>
      decide ((static_chunk MATRIX_DIM t 0).1 = 0 ∧ 2 ≤ (static_chunk MATRIX_DIM t 0).2 ∧
        1 % t ≠ 0)) = true := by
  refine ⟨?_, ⟨?_, by decide⟩, ⟨?_, by decide⟩, by decide⟩
  · simp [static_blocks, static_block, static_chunk, MATRIX_DIM, List.range_succ]
  · simp [static_block, static_chunk, MATRIX_DIM, List.mem_range']
  · simp [static_block, static_chunk, MATRIX_DIM, List.mem_range']

end UCS645
